import Mathlib

/-!
Verification of the nnsearch approximate nearest-neighbour program
(src/Main.cpp, src/Worker.hpp): the spatial hash, the Fibonacci index
fold, the counting sort, the bucket-boundary table and the per-point
approximate search with its strided parallel partitioning.

Modelling conventions:
* positions are over ℚ (exact arithmetic in place of IEEE floats);
* comparisons of Euclidean lengths (`glm::length`) are modelled by
  comparisons of squared distances, which order identically;
* the FLT_MAX "no neighbour yet" sentinel of the search is modelled by an
  `Option` best-so-far state (every real distance is below FLT_MAX);
* `uint32_t` arithmetic is modelled on ℕ with explicit `% 2^32`; the
  `static_cast<uint32_t>` of a non-negative float is its floor;
* the fixed-size global arrays are modelled as functions out of ℕ
  (result slots as `Option Point`, so an unwritten slot is visible), and
  the compile-time macro sizes NUM_POINTS / NUM_BUCKETS become ordinary
  parameters `N` / `K`, with the macro values available as constants.
-/

namespace NNSearch

/-- 3-component vector (`glm::vec3`), with exact ℚ components. -/
structure Vec3 where
  x : ℚ
  y : ℚ
  z : ℚ
deriving DecidableEq

/-- `Point` from Main.cpp. -/
structure Point where
  position : Vec3
  bucket_id : ℕ
  found_nearest : Bool := false
  nearest_index : ℕ := 0
deriving DecidableEq

/-- A value-initialised C++ `Point` (the global arrays start zeroed). -/
instance : Inhabited Point := ⟨⟨⟨0, 0, 0⟩, 0, false, 0⟩⟩

/-! ## Spatial hash (Main.cpp lines 34-130) -/

/-- `fract2` from Main.cpp: fractional part, taken toward zero. -/
def fract2 (x : ℚ) : ℚ := if 0 ≤ x then x - ⌊x⌋ else x - ⌈x⌉

/-- `hash_bounds` constant. -/
def hash_bounds : Vec3 := ⟨1024, 1024, 1024⟩

/-- `BUCKET_SIZE` macro. -/
def BUCKET_SIZE : ℚ := 1/2

/-- `NUM_BUCKETS` macro. -/
def NUM_BUCKETS : ℕ := 16384

/-- `NUM_POINTS` macro. -/
def NUM_POINTS : ℕ := 1000000

def hash_prime_1 : ℕ := 73856093
def hash_prime_2 : ℕ := 19349663
def hash_prime_3 : ℕ := 83492791

/-- The modulus of `uint32_t` arithmetic. -/
def U32 : ℕ := 2 ^ 32

/-- `static_cast<uint32_t>` of a float value: truncation, which on the
    non-negative values the program feeds it is the floor. -/
def toUint32 (q : ℚ) : ℕ := (⌊q⌋).toNat % U32

/-- `(pos + hash_bounds) / BUCKET_SIZE`: the cell-space coordinate. -/
def scaledPos (pos : Vec3) : Vec3 :=
  ⟨(pos.x + hash_bounds.x) / BUCKET_SIZE,
   (pos.y + hash_bounds.y) / BUCKET_SIZE,
   (pos.z + hash_bounds.z) / BUCKET_SIZE⟩

/-- The raw three-prime XOR hash of integer cell coordinates, in
    `uint32_t` arithmetic. -/
def rawHashCell (x y z : ℕ) : ℕ :=
  (hash_prime_1 * x % U32) ^^^ (hash_prime_2 * y % U32) ^^^ (hash_prime_3 * z % U32)

/-- `hash(pos)` from Main.cpp. -/
def hash (pos : Vec3) : ℕ :=
  let p := scaledPos pos
  rawHashCell (toUint32 p.x) (toUint32 p.y) (toUint32 p.z)

/-- The per-axis corner adjustment inside `hash(pos, offset)`:
    step one cell down on each axis whose fractional part is below 0.5. -/
def cornerAdjust (p0 : Vec3) : Vec3 :=
  ⟨p0.x + (if fract2 p0.x < 1/2 then -1 else 0),
   p0.y + (if fract2 p0.y < 1/2 then -1 else 0),
   p0.z + (if fract2 p0.z < 1/2 then -1 else 0)⟩

/-- The adjusted cell-space position `p2` inside `hash(pos, offset)`. -/
def neighborPos (pos offset : Vec3) : Vec3 :=
  let p1 := cornerAdjust (scaledPos pos)
  ⟨p1.x + offset.x, p1.y + offset.y, p1.z + offset.z⟩

/-- `hash(pos, offset)` from Main.cpp (the neighbour-offset overload). -/
def hashOffset (pos offset : Vec3) : ℕ :=
  let p2 := neighborPos pos offset
  rawHashCell (toUint32 p2.x) (toUint32 p2.y) (toUint32 p2.z)

/-- `hash_bucket_offsets`: the 8 fixed 0/1 offset vectors. -/
def hash_bucket_offsets : List Vec3 :=
  [⟨0,0,0⟩, ⟨1,0,0⟩, ⟨0,1,0⟩, ⟨1,1,0⟩, ⟨0,0,1⟩, ⟨1,0,1⟩, ⟨0,1,1⟩, ⟨1,1,1⟩]

/-- `fib_calc_bucket_shift`: `32 - log2(bucket_count)` (the `double`
    `log2` truncated to `uint32_t` is the natural-number `log2`). -/
def fib_calc_bucket_shift (bucket_count : ℕ) : ℕ := 32 - Nat.log2 bucket_count

/-- The global `fib_bucket_shift` (for `NUM_BUCKETS = 16384`). -/
def fib_bucket_shift : ℕ := fib_calc_bucket_shift NUM_BUCKETS

/-- `fib_hash_to_index`, parametrised by the shift (the source reads the
    global `fib_bucket_shift`). -/
def fib_hash_to_index (shift h : ℕ) : ℕ :=
  let hash2 := h ^^^ (h >>> shift)
  (2654435769 * hash2 % U32) >>> shift

/-- `fib_hash(pos)` from Main.cpp. -/
def fib_hash (pos : Vec3) : ℕ := fib_hash_to_index fib_bucket_shift (hash pos)

/-- `fib_hash(pos, offset)` from Main.cpp. -/
def fib_hash_offset (pos offset : Vec3) : ℕ :=
  fib_hash_to_index fib_bucket_shift (hashOffset pos offset)

/-! ## Counting sort and boundary table (Main.cpp lines 186-219) -/

/-- First counting pass: `buckets_hash[p.bucket_id]++` over the input. -/
def countsOf (l : List Point) : ℕ → ℕ :=
  l.foldl (fun f p => Function.update f p.bucket_id (f p.bucket_id + 1)) fun _ => 0

/-- In-place prefix-sum pass: `for i in 1..K: a[i] += a[i-1]`. -/
def prefixPass (K : ℕ) (f : ℕ → ℕ) : ℕ → ℕ :=
  (List.range (K - 1)).foldl (fun g i => Function.update g (i + 1) (g (i + 1) + g i)) f

/-- One placement step: decrement the counter of the point's bucket and
    write the point at the decremented slot.  (ℕ subtraction: the C++
    `uint32_t` decrement never underflows when every id is counted.) -/
def placeStep (st : (ℕ → ℕ) × (ℕ → Option Point)) (p : Point) : (ℕ → ℕ) × (ℕ → Option Point) :=
  let c := st.1 p.bucket_id - 1
  (Function.update st.1 p.bucket_id c, Function.update st.2 c (some p))

/-- The whole sort phase of `main`: counts, prefix sums, then placement.
    Returns the final counter table and the sorted array
    (`Option` marks which slots were actually written). -/
def countingSort (K : ℕ) (l : List Point) : (ℕ → ℕ) × (ℕ → Option Point) :=
  l.foldl placeStep (prefixPass K (countsOf l), fun _ => none)

/-- The sorted array as read by the rest of the program (unwritten slots
    hold the value-initialised `Point`, as the C++ globals do). -/
def sortedArr (K : ℕ) (l : List Point) : ℕ → Point :=
  fun i => ((countingSort K l).2 i).getD default

/-- One step of the boundary-building loop of `main`: state is
    `(buckets_boundary, current)` with `current` starting at `K + 1`. -/
def boundaryStep (K : ℕ) (sorted : ℕ → Point) (st : (ℕ → ℤ) × ℕ) (i : ℕ) : (ℕ → ℤ) × ℕ :=
  let p := sorted i
  if p.bucket_id > st.2 ∨ st.2 = K + 1 then
    (Function.update st.1 p.bucket_id (i : ℤ), p.bucket_id)
  else st

/-- The boundary-building phase: `buckets_boundary` filled with -1, then
    the scan over the sorted array. -/
def boundaryPass (N K : ℕ) (sorted : ℕ → Point) : ℕ → ℤ :=
  ((List.range N).foldl (boundaryStep K sorted) (fun _ => (-1 : ℤ), K + 1)).1

/-! ## Approximate search (Main.cpp lines 275-334) -/

/-- Squared Euclidean distance; `glm::length` comparisons in the source
    order exactly as the squared distances do. -/
def dist2 (a b : Vec3) : ℚ := (a.x - b.x)^2 + (a.y - b.y)^2 + (a.z - b.z)^2

/-- The running-minimum update of the scan body.  `none` models the
    initial FLT_MAX / not-found state, in which any candidate is taken. -/
def updBest (b0pos : Vec3) (best : Option (ℚ × ℕ)) (k : ℕ) (kpos : Vec3) : Option (ℚ × ℕ) :=
  let d := dist2 kpos b0pos
  match best with
  | none => some (d, k)
  | some (bd, bi) => if d < bd then some (d, k) else some (bd, bi)

/-- The do-while scan over one candidate bucket, from index `k`:
    dereference `sorted[k]`, update the running minimum when `k ≠ i` and
    the scanned id equals the candidate id, and continue while the
    scanned id matched and `k + 1 < N`.  The second component records
    every index dereferenced (ghost instrumentation for the safety
    claim); `fuel` only forces termination and is never exhausted when
    called with `fuel = N` and `k < N`. -/
def scanRun (N : ℕ) (sorted : ℕ → Point) (b0pos : Vec3) (i bIdx : ℕ) :
    ℕ → ℕ → Option (ℚ × ℕ) → Option (ℚ × ℕ) × List ℕ
  | k, fuel, best =>
    let b1 := sorted k
    let best' := if i ≠ k ∧ b1.bucket_id = bIdx then updBest b0pos best k b1.position else best
    if b1.bucket_id = bIdx ∧ k + 1 < N then
      match fuel with
      | 0 => (best', [k])
      | fuel' + 1 =>
        let r := scanRun N sorted b0pos i bIdx (k + 1) fuel' best'
        (r.1, k :: r.2)
    else (best', [k])

/-- The 8-bucket loop of `NNApproxSearch` for the point at index `i`:
    for each offset, hash the candidate bucket, skip it when its
    boundary entry is -1, otherwise scan its run from the boundary
    index.  Returns the final best-so-far state and the list of all
    sorted-array indices dereferenced by the scans. -/
def searchScan (N : ℕ) (sorted : ℕ → Point) (boundary : ℕ → ℤ) (i : ℕ) :
    Option (ℚ × ℕ) × List ℕ :=
  let b0 := sorted i
  hash_bucket_offsets.foldl (fun st off =>
    let bucket_index := fib_hash_offset b0.position off
    let k := boundary bucket_index
    if k = -1 then st
    else
      let r := scanRun N sorted b0.position i bucket_index k.toNat N st.1
      (r.1, st.2 ++ r.2)) (none, [])

/-- The best-so-far result of the 8-bucket loop. -/
def searchBest (N : ℕ) (sorted : ℕ → Point) (boundary : ℕ → ℤ) (i : ℕ) :
    Option (ℚ × ℕ) :=
  (searchScan N sorted boundary i).1

/-- All sorted-array indices dereferenced by the do-while scans for
    point `i`. -/
def searchDerefs (N : ℕ) (sorted : ℕ → Point) (boundary : ℕ → ℤ) (i : ℕ) : List ℕ :=
  (searchScan N sorted boundary i).2

/-- The per-point result written to `point_cloud_final[i]`. -/
def searchPoint (N : ℕ) (sorted : ℕ → Point) (boundary : ℕ → ℤ) (i : ℕ) : Point :=
  let b0 := sorted i
  let best := searchBest N sorted boundary i
  { position := b0.position
    bucket_id := b0.bucket_id
    found_nearest := best.isSome
    nearest_index := (best.map Prod.snd).getD 0 }

/-- The strided index sequence `start, start + step, …` kept below `N`
    (the header of the `for` loop of `NNApproxSearch`); `fuel = N`
    suffices for any `step ≥ 1`. -/
def stride (N step : ℕ) : ℕ → ℕ → List ℕ
  | _, 0 => []
  | i, fuel + 1 => if i < N then i :: stride N step (i + step) fuel else []

/-- The indices processed by `NNApproxSearch(start, step)`. -/
def searchIndices (N start step : ℕ) : List ℕ := stride N step start N

/-- `NNApproxSearch(start, step)` as a pass over a result array. -/
def searchPass (N : ℕ) (sorted : ℕ → Point) (boundary : ℕ → ℤ) (start step : ℕ)
    (res : ℕ → Option Point) : ℕ → Option Point :=
  (searchIndices N start step).foldl
    (fun r i => Function.update r i (some (searchPoint N sorted boundary i))) res

/-- The sequential run: `NNApproxSearch(0, 1)` on an unwritten array. -/
def runSequential (N : ℕ) (sorted : ℕ → Point) (boundary : ℕ → ℤ) : ℕ → Option Point :=
  searchPass N sorted boundary 0 1 fun _ => none

/-- The partitioned run: every slot `n < step` executes
    `NNApproxSearch(n, step)`; the writes are disjoint, so the slot
    order is immaterial. -/
def runParallel (N : ℕ) (sorted : ℕ → Point) (boundary : ℕ → ℤ) (step : ℕ) :
    ℕ → Option Point :=
  (List.range step).foldl (fun r n => searchPass N sorted boundary n step r) fun _ => none

/-! ## Setup (Main.cpp lines 154-181) -/

/-- The setup portion of `main` (point generation and worker creation)
    contains no validation branch: no code inspects whether the bucket
    count is a power of two, whether the cell size is positive or
    whether the partition step is usable, and nothing aborts.  Setup
    therefore accepts every configuration. -/
def mainSetupAccepts (bucket_count : ℕ) (cell_size : ℚ) (worker_count : ℕ) : Bool :=
  true

/-! ## Spec-side descriptions used by the claims -/

/-- Number of points of `l` in bucket `b`. -/
def cnt (l : List Point) (b : ℕ) : ℕ := l.countP fun p => p.bucket_id == b

/-- Number of points of `l` in buckets strictly below `b`. -/
def cumBelow (l : List Point) (b : ℕ) : ℕ := ∑ j in Finset.range b, cnt l j

/-- The integer cell of a cell-space position (the truncation the raw
    hash applies to each axis, on non-negative coordinates). -/
def cellInt (p : Vec3) : ℤ × ℤ × ℤ := (⌊p.x⌋, ⌊p.y⌋, ⌊p.z⌋)

/-- The 8 cells inspected by the neighbour-offset hash, in source order. -/
def neighborCells (pos : Vec3) : List (ℤ × ℤ × ℤ) :=
  hash_bucket_offsets.map fun off => cellInt (neighborPos pos off)

/-- Spec §4.1 wording: the nearest-corner cell — per axis, the cell
    coordinate decremented by one exactly when the fractional part of
    the cell-space coordinate is below 0.5. -/
def specNearestCorner (pos : Vec3) : ℤ × ℤ × ℤ :=
  let p := scaledPos pos
  (⌊p.x⌋ - (if fract2 p.x < 1/2 then 1 else 0),
   ⌊p.y⌋ - (if fract2 p.y < 1/2 then 1 else 0),
   ⌊p.z⌋ - (if fract2 p.z < 1/2 then 1 else 0))

/-- Spec §4.1 wording: the 2×2×2 block of cells around the nearest
    corner (0/1 added per axis), enumerated in the offset order of the
    source table. -/
def specBlock (pos : Vec3) : List (ℤ × ℤ × ℤ) :=
  let c := specNearestCorner pos
  [(c.1, c.2.1, c.2.2), (c.1 + 1, c.2.1, c.2.2),
   (c.1, c.2.1 + 1, c.2.2), (c.1 + 1, c.2.1 + 1, c.2.2),
   (c.1, c.2.1, c.2.2 + 1), (c.1 + 1, c.2.1, c.2.2 + 1),
   (c.1, c.2.1 + 1, c.2.2 + 1), (c.1 + 1, c.2.1 + 1, c.2.2 + 1)]

/-- Candidate of the search for point `i`: an in-range index other than
    `i` whose point sits in one of the 8 candidate buckets. -/
def isCandidate (N : ℕ) (sorted : ℕ → Point) (i k : ℕ) : Prop :=
  k < N ∧ k ≠ i ∧
    ∃ off ∈ hash_bucket_offsets,
      (sorted k).bucket_id = fib_hash_offset (sorted i).position off

/-! ## C6: the Fibonacci fold is pure and lands in `[0, bucket_count)` -/

/-- Claim C6: the bucket-index hash is a pure function — identical
    position and offset yield the identical bucket index — and when
    `bucket_count = 2^k` (power of two, `k ≤ 32`), the index produced by
    the Fibonacci fold (xor with the hash shifted right by
    `shift = 32 - log2 bucket_count`, multiply by 2654435769 mod 2^32,
    shift right by `shift`) lies in `[0, bucket_count)`. -/
theorem fib_fold_pure_and_in_range (bucket_count k : ℕ)
    (hpow : bucket_count = 2 ^ k) (hk : k ≤ 32) :
    (∀ h : ℕ, fib_hash_to_index (fib_calc_bucket_shift bucket_count) h < bucket_count) ∧
    (∀ p q off off2 : Vec3, p = q → off = off2 →
      fib_hash_offset p off = fib_hash_offset q off2) := by
  constructor
  · intro h
    subst hpow
    have hlog : Nat.log2 (2 ^ k) = k := by
      rw [Nat.log2_eq_log_two]
      exact Nat.log_pow (by norm_num) k
    show (2654435769 * (h ^^^ (h >>> fib_calc_bucket_shift (2 ^ k))) % U32) >>>
        fib_calc_bucket_shift (2 ^ k) < 2 ^ k
    have hsh : fib_calc_bucket_shift (2 ^ k) = 32 - k := by
      simp [fib_calc_bucket_shift, hlog]
    rw [hsh, Nat.shiftRight_eq_div_pow]
    have hlt : 2654435769 * (h ^^^ (h >>> (32 - k))) % U32 < U32 :=
      Nat.mod_lt _ (by norm_num [U32])
    rw [Nat.div_lt_iff_lt_mul (pow_pos (by norm_num) _)]
    have : (2 : ℕ) ^ k * 2 ^ (32 - k) = 2 ^ 32 := by
      rw [← pow_add]
      congr 1
      omega
    calc 2654435769 * (h ^^^ (h >>> (32 - k))) % U32 < U32 := hlt
      _ = 2 ^ k * 2 ^ (32 - k) := by rw [this]; rfl
  · intro p q off off2 hp hoff
    rw [hp, hoff]

/-- Witness for C6, at `bucket_count = 16 = 2^4`. -/
theorem fib_fold_pure_and_in_range_witness :
    ((16 : ℕ) = 2 ^ 4 ∧ (4 : ℕ) ≤ 32) ∧
    ((∀ h : ℕ, fib_hash_to_index (fib_calc_bucket_shift 16) h < 16) ∧
     (∀ p q off off2 : Vec3, p = q → off = off2 →
       fib_hash_offset p off = fib_hash_offset q off2)) :=
  ⟨⟨by norm_num, by norm_num⟩,
   fib_fold_pure_and_in_range 16 4 (by norm_num) (by norm_num)⟩

/-! ## C7: `main` performs no configuration validation -/

/-- Claim C7 is contradicted by the code: `main` (Main.cpp lines
    154-181) contains no validation branch of any kind, so a
    configuration with a non-power-of-two bucket count (here 3) is
    accepted and setup proceeds — nothing rejects it before worker
    creation. -/
theorem setup_accepts_bad_bucket_count :
    mainSetupAccepts 3 (1/2) 1 = true ∧ ¬ ∃ k : ℕ, (3 : ℕ) = 2 ^ k := by
  refine ⟨rfl, ?_⟩
  rintro ⟨k, hk⟩
  match k, hk with
  | 0, hk => simp at hk
  | 1, hk => simp at hk
  | (n + 2), hk =>
    have h4 : (2 : ℕ) ^ 2 ≤ 2 ^ (n + 2) := Nat.pow_le_pow_right (by norm_num) (by omega)
    omega

/-! ## C5: the 8 offset cells are the 2×2×2 block at the nearest corner -/

/-- Floor of a corner-adjusted coordinate plus an integer offset. -/
lemma floor_corner_add (x : ℚ) (o : ℤ) :
    ⌊x + (if fract2 x < 1/2 then (-1 : ℚ) else 0) + (o : ℚ)⌋ =
      ⌊x⌋ - (if fract2 x < 1/2 then 1 else 0) + o := by
  by_cases h : fract2 x < 1/2
  · have hq : x + (-1 : ℚ) + (o : ℚ) = x + ((o - 1 : ℤ) : ℚ) := by push_cast; ring
    simp only [h, if_true]
    rw [hq, Int.floor_add_int]
    ring
  · have hq : x + (0 : ℚ) + (o : ℚ) = x + ((o : ℤ) : ℚ) := by push_cast; ring
    simp only [h, if_false]
    rw [hq, Int.floor_add_int]
    ring

/-- `floor_corner_add` at offset 0, as it appears syntactically. -/
lemma floor_corner_add0 (x : ℚ) :
    ⌊x + (if fract2 x < 1/2 then (-1 : ℚ) else 0) + 0⌋ =
      ⌊x⌋ - (if fract2 x < 1/2 then 1 else 0) := by
  have := floor_corner_add x 0
  simpa using this

/-- `floor_corner_add` at offset 1, as it appears syntactically. -/
lemma floor_corner_add1 (x : ℚ) :
    ⌊x + (if fract2 x < 1/2 then (-1 : ℚ) else 0) + 1⌋ =
      ⌊x⌋ - (if fract2 x < 1/2 then 1 else 0) + 1 := by
  have := floor_corner_add x 1
  simpa using this

/-- Claim C5: for a position with non-negative bounds-shifted
    coordinates, the 8 cells inspected by the neighbour-offset hash over
    the 8 fixed offsets are exactly the 2×2×2 block around the nearest
    corner (per axis, decrement the cell coordinate when the fractional
    part of the cell-space coordinate is below 0.5, then add the 0/1
    offset); in particular the 8 cells include the point's own cell and
    each is adjacent to it (within one cell per axis). -/
theorem neighbor_cells_are_corner_block (pos : Vec3)
    (hx : 0 ≤ (scaledPos pos).x) (hy : 0 ≤ (scaledPos pos).y)
    (hz : 0 ≤ (scaledPos pos).z) :
    neighborCells pos = specBlock pos ∧
    cellInt (scaledPos pos) ∈ neighborCells pos ∧
    ∀ c ∈ neighborCells pos,
      (c.1 - (cellInt (scaledPos pos)).1).natAbs ≤ 1 ∧
      (c.2.1 - (cellInt (scaledPos pos)).2.1).natAbs ≤ 1 ∧
      (c.2.2 - (cellInt (scaledPos pos)).2.2).natAbs ≤ 1 := by
  have hmain : neighborCells pos = specBlock pos := by
    simp only [neighborCells, specBlock, specNearestCorner, hash_bucket_offsets,
      neighborPos, cornerAdjust, cellInt, List.map_cons, List.map_nil]
    simp only [floor_corner_add0, floor_corner_add1]
  refine ⟨hmain, ?_, ?_⟩
  · rw [hmain]
    simp only [specBlock, specNearestCorner, cellInt, List.mem_cons, Prod.mk.injEq,
      List.not_mem_nil, or_false]
    by_cases h1 : fract2 (scaledPos pos).x < 1/2 <;>
      by_cases h2 : fract2 (scaledPos pos).y < 1/2 <;>
        by_cases h3 : fract2 (scaledPos pos).z < 1/2 <;>
          simp [h1, h2, h3] <;> omega
  · rw [hmain]
    intro c hc
    simp only [specBlock, specNearestCorner, List.mem_cons,
      List.not_mem_nil, or_false] at hc
    simp only [cellInt]
    rcases hc with h | h | h | h | h | h | h | h <;> subst h <;>
      refine ⟨?_, ?_, ?_⟩
    all_goals simp only [specNearestCorner, cellInt]
    all_goals split_ifs <;> omega

/-- Witness for C5 at the origin (cell-space coordinate 2048 per axis). -/
theorem neighbor_cells_are_corner_block_witness :
    (0 ≤ (scaledPos ⟨0, 0, 0⟩).x ∧ 0 ≤ (scaledPos ⟨0, 0, 0⟩).y ∧
      0 ≤ (scaledPos ⟨0, 0, 0⟩).z) ∧
    (neighborCells ⟨0, 0, 0⟩ = specBlock ⟨0, 0, 0⟩ ∧
     cellInt (scaledPos ⟨0, 0, 0⟩) ∈ neighborCells ⟨0, 0, 0⟩ ∧
     ∀ c ∈ neighborCells ⟨0, 0, 0⟩,
       (c.1 - (cellInt (scaledPos ⟨0, 0, 0⟩)).1).natAbs ≤ 1 ∧
       (c.2.1 - (cellInt (scaledPos ⟨0, 0, 0⟩)).2.1).natAbs ≤ 1 ∧
       (c.2.2 - (cellInt (scaledPos ⟨0, 0, 0⟩)).2.2).natAbs ≤ 1) :=
  ⟨⟨by norm_num [scaledPos, hash_bounds, BUCKET_SIZE],
    by norm_num [scaledPos, hash_bounds, BUCKET_SIZE],
    by norm_num [scaledPos, hash_bounds, BUCKET_SIZE]⟩,
   neighbor_cells_are_corner_block ⟨0, 0, 0⟩
     (by norm_num [scaledPos, hash_bounds, BUCKET_SIZE])
     (by norm_num [scaledPos, hash_bounds, BUCKET_SIZE])
     (by norm_num [scaledPos, hash_bounds, BUCKET_SIZE])⟩

/-! ## Stride lemmas (partitioning of the search loop) -/

/-- Elements of a stride are at least the start index and below `N`. -/
lemma stride_bounds (N step : ℕ) :
    ∀ fuel i x, x ∈ stride N step i fuel → i ≤ x ∧ x < N := by
  intro fuel
  induction fuel with
  | zero => intro i x hx; simp [stride] at hx
  | succ fuel ih =>
    intro i x hx
    simp only [stride] at hx
    by_cases hi : i < N
    · rw [if_pos hi] at hx
      rcases List.mem_cons.mp hx with h | h
      · omega
      · have := ih (i + step) x h
        omega
    · rw [if_neg hi] at hx
      simp at hx

/-- Membership in a stride, given enough fuel. -/
lemma mem_stride (N step : ℕ) (hstep : 1 ≤ step) :
    ∀ fuel i x, N ≤ fuel + i →
      (x ∈ stride N step i fuel ↔ (∃ t, x = i + t * step) ∧ x < N) := by
  intro fuel
  induction fuel with
  | zero =>
    intro i x hfuel
    simp only [stride, List.not_mem_nil, false_iff]
    rintro ⟨⟨t, ht⟩, hxN⟩
    have : i ≤ x := by omega
    omega
  | succ fuel ih =>
    intro i x hfuel
    simp only [stride]
    by_cases hi : i < N
    · rw [if_pos hi]
      have hrec := ih (i + step) x (by omega)
      constructor
      · intro hx
        rcases List.mem_cons.mp hx with h | h
        · exact ⟨⟨0, by omega⟩, by omega⟩
        · rcases (hrec.mp h) with ⟨⟨t, ht⟩, hxN⟩
          exact ⟨⟨t + 1, by rw [ht]; ring⟩, hxN⟩
      · rintro ⟨⟨t, ht⟩, hxN⟩
        match t, ht with
        | 0, ht => exact List.mem_cons.mpr (Or.inl (by omega))
        | (t' + 1), ht =>
          refine List.mem_cons.mpr (Or.inr (hrec.mpr ⟨⟨t', ?_⟩, hxN⟩))
          rw [ht]; ring
    · rw [if_neg hi]
      simp only [List.not_mem_nil, false_iff]
      rintro ⟨⟨t, ht⟩, hxN⟩
      have : i ≤ x := by omega
      omega

/-- A stride has no duplicate indices. -/
lemma stride_nodup (N step : ℕ) (hstep : 1 ≤ step) :
    ∀ fuel i, (stride N step i fuel).Nodup := by
  intro fuel
  induction fuel with
  | zero => intro i; simp [stride]
  | succ fuel ih =>
    intro i
    simp only [stride]
    by_cases hi : i < N
    · rw [if_pos hi]
      refine List.nodup_cons.mpr ⟨?_, ih (i + step)⟩
      intro hmem
      have := stride_bounds N step fuel (i + step) i hmem
      omega
    · rw [if_neg hi]; exact List.nodup_nil

/-- Membership in `searchIndices` for a slot `n < step`: exactly the
    indices below `N` congruent to `n` modulo `step`. -/
lemma mem_searchIndices (N step n x : ℕ) (hstep : 1 ≤ step) (hn : n < step) :
    x ∈ searchIndices N n step ↔ x < N ∧ x % step = n := by
  rw [searchIndices, mem_stride N step hstep N n x (by omega)]
  constructor
  · rintro ⟨⟨t, ht⟩, hxN⟩
    refine ⟨hxN, ?_⟩
    subst ht
    rw [Nat.add_mul_mod_self_right]
    exact Nat.mod_eq_of_lt hn
  · rintro ⟨hxN, hmod⟩
    refine ⟨⟨x / step, ?_⟩, hxN⟩
    conv_lhs => rw [← Nat.mod_add_div x step]
    rw [hmod]
    ring

/-- Applying the fold of per-index updates: the value at `j` is the
    freshly computed point when `j` is in the index list. -/
lemma foldl_update_apply (f : ℕ → Point) :
    ∀ (L : List ℕ) (res : ℕ → Option Point) (j : ℕ),
      (L.foldl (fun r i => Function.update r i (some (f i))) res) j =
        if j ∈ L then some (f j) else res j := by
  intro L
  induction L with
  | nil => intro res j; simp
  | cons a L ih =>
    intro res j
    simp only [List.foldl_cons, ih, List.mem_cons]
    by_cases hj : j ∈ L
    · simp [hj]
    · by_cases hja : j = a
      · subst hja
        simp [hj, Function.update_same]
      · simp [hj, hja, Function.update_noteq hja]

/-- `NNApproxSearch(start, step)` writes exactly its strided indices. -/
lemma searchPass_apply (N : ℕ) (sorted : ℕ → Point) (boundary : ℕ → ℤ)
    (start step : ℕ) (res : ℕ → Option Point) (j : ℕ) :
    searchPass N sorted boundary start step res j =
      if j ∈ searchIndices N start step then some (searchPoint N sorted boundary j)
      else res j :=
  foldl_update_apply (searchPoint N sorted boundary) (searchIndices N start step) res j

/-- Folding the per-slot passes: the value at `j` is the computed point
    when some processed slot covers `j`. -/
lemma foldl_pass_apply (N : ℕ) (sorted : ℕ → Point) (boundary : ℕ → ℤ) (step : ℕ) :
    ∀ (slots : List ℕ) (res : ℕ → Option Point) (j : ℕ),
      (slots.foldl (fun r n => searchPass N sorted boundary n step r) res) j =
        if ∃ n ∈ slots, j ∈ searchIndices N n step then some (searchPoint N sorted boundary j)
        else res j := by
  intro slots
  induction slots with
  | nil => intro res j; simp
  | cons a slots ih =>
    intro res j
    simp only [List.foldl_cons, ih, searchPass_apply, List.mem_cons]
    by_cases h1 : ∃ n ∈ slots, j ∈ searchIndices N n step
    · rw [if_pos h1, if_pos]
      exact h1.imp fun n hn => ⟨List.mem_cons.mpr (Or.inr hn.1), hn.2⟩
    · rw [if_neg h1]
      by_cases h2 : j ∈ searchIndices N a step
      · rw [if_pos h2, if_pos ⟨a, List.mem_cons_self a slots, h2⟩]
      · rw [if_neg h2, if_neg]
        rintro ⟨n, hn, hj⟩
        rcases List.mem_cons.mp hn with rfl | hn
        · exact h2 hj
        · exact h1 ⟨n, hn, hj⟩

/-! ## C4: the strided partitions reproduce the sequential run -/

/-- Claim C4: for any `step ≥ 1`, the strided index sets
    `{n, n + step, …}` for the slots `n < step` are pairwise disjoint,
    stay below `N`, and cover every index in `[0, N)`; and running the
    per-point search over all slots produces a result array identical at
    every index to the sequential run with `start = 0, step = 1`. -/
theorem strided_run_equals_sequential (N : ℕ) (sorted : ℕ → Point)
    (boundary : ℕ → ℤ) (step : ℕ) (hstep : 1 ≤ step) :
    (∀ n1 n2, n1 < step → n2 < step → n1 ≠ n2 →
      ∀ x, x ∈ searchIndices N n1 step → x ∈ searchIndices N n2 step → False) ∧
    (∀ n x, n < step → x ∈ searchIndices N n step → x < N) ∧
    (∀ x, x < N → ∃ n, n < step ∧ x ∈ searchIndices N n step) ∧
    (∀ j, runParallel N sorted boundary step j = runSequential N sorted boundary j) := by
  refine ⟨?_, ?_, ?_, ?_⟩
  · intro n1 n2 hn1 hn2 hne x hx1 hx2
    have h1 := (mem_searchIndices N step n1 x hstep hn1).mp hx1
    have h2 := (mem_searchIndices N step n2 x hstep hn2).mp hx2
    omega
  · intro n x hn hx
    exact ((mem_searchIndices N step n x hstep hn).mp hx).1
  · intro x hx
    refine ⟨x % step, Nat.mod_lt x (by omega), ?_⟩
    exact (mem_searchIndices N step (x % step) x hstep (Nat.mod_lt x (by omega))).mpr ⟨hx, rfl⟩
  · intro j
    rw [runParallel, runSequential, searchPass_apply, foldl_pass_apply]
    by_cases hjN : j < N
    · rw [if_pos, if_pos]
      · exact (mem_searchIndices N 1 0 j (by omega) (by omega)).mpr ⟨hjN, by omega⟩
      · refine ⟨j % step, List.mem_range.mpr (Nat.mod_lt j (by omega)), ?_⟩
        exact (mem_searchIndices N step (j % step) j hstep
          (Nat.mod_lt j (by omega))).mpr ⟨hjN, rfl⟩
    · rw [if_neg, if_neg]
      · intro hmem
        exact hjN ((mem_searchIndices N 1 0 j (by omega) (by omega)).mp hmem).1
      · rintro ⟨n, hn, hj⟩
        exact hjN ((mem_searchIndices N step n j hstep (List.mem_range.mp hn)).mp hj).1

/-- Witness for C4: `N = 3`, `step = 2`, on an arbitrary tiny instance. -/
theorem strided_run_equals_sequential_witness :
    1 ≤ 2 ∧
    ((∀ n1 n2, n1 < 2 → n2 < 2 → n1 ≠ n2 →
      ∀ x, x ∈ searchIndices 3 n1 2 → x ∈ searchIndices 3 n2 2 → False) ∧
    (∀ n x, n < 2 → x ∈ searchIndices 3 n 2 → x < 3) ∧
    (∀ x, x < 3 → ∃ n, n < 2 ∧ x ∈ searchIndices 3 n 2) ∧
    (∀ j, runParallel 3 (fun _ => default) (fun _ => -1) 2 j =
      runSequential 3 (fun _ => default) (fun _ => -1) j)) :=
  ⟨by norm_num,
   strided_run_equals_sequential 3 (fun _ => default) (fun _ => -1) 2 (by norm_num)⟩

/-! ## C9: each result index written once, with pos and id preserved -/

/-- Count of an index in one slot's stride. -/
lemma count_searchIndices (N step n i : ℕ) (hstep : 1 ≤ step) (hn : n < step) :
    (searchIndices N n step).count i = if i < N ∧ i % step = n then 1 else 0 := by
  by_cases h : i < N ∧ i % step = n
  · rw [if_pos h]
    exact List.count_eq_one_of_mem (stride_nodup N step hstep N n)
      ((mem_searchIndices N step n i hstep hn).mpr h)
  · rw [if_neg h]
    refine List.count_eq_zero_of_not_mem ?_
    intro hmem
    exact h ((mem_searchIndices N step n i hstep hn).mp hmem)

/-- Count of an index in the concatenation of the first `m` slots. -/
lemma count_flatMap_slots (N step i : ℕ) (hstep : 1 ≤ step) (hi : i < N) :
    ∀ m, m ≤ step →
      ((List.range m).flatMap fun n => searchIndices N n step).count i =
        if i % step < m then 1 else 0 := by
  intro m
  induction m with
  | zero => intro _; simp
  | succ m ih =>
    intro hm
    rw [List.range_succ, List.flatMap_append, List.count_append, ih (by omega)]
    simp only [List.flatMap_cons, List.flatMap_nil, List.append_nil]
    rw [count_searchIndices N step m i hstep (by omega)]
    have := Nat.mod_lt i (show 0 < step by omega)
    split_ifs <;> omega

/-- Claim C9: for every index `i` processed by the search phase, the
    result entry at `i` carries exactly the position and bucket id of
    the sorted entry at `i` (only `found_nearest` / `nearest_index`
    differ), and across the strided partitions of any `step ≥ 1` the
    index `i` is written exactly once. -/
theorem result_preserves_fields_written_once (N : ℕ) (sorted : ℕ → Point)
    (boundary : ℕ → ℤ) (step i : ℕ) (hstep : 1 ≤ step) (hi : i < N) :
    ((List.range step).flatMap fun n => searchIndices N n step).count i = 1 ∧
    runParallel N sorted boundary step i = some (searchPoint N sorted boundary i) ∧
    (searchPoint N sorted boundary i).position = (sorted i).position ∧
    (searchPoint N sorted boundary i).bucket_id = (sorted i).bucket_id := by
  refine ⟨?_, ?_, rfl, rfl⟩
  · rw [count_flatMap_slots N step i hstep hi step le_rfl]
    rw [if_pos (Nat.mod_lt i (show 0 < step by omega))]
  · rw [runParallel, foldl_pass_apply, if_pos]
    refine ⟨i % step, List.mem_range.mpr (Nat.mod_lt i (by omega)), ?_⟩
    exact (mem_searchIndices N step (i % step) i hstep
      (Nat.mod_lt i (by omega))).mpr ⟨hi, rfl⟩

/-- Witness for C9: `N = 2`, `step = 2`, `i = 1`. -/
theorem result_preserves_fields_written_once_witness :
    (1 ≤ 2 ∧ 1 < 2) ∧
    (((List.range 2).flatMap fun n => searchIndices 2 n 2).count 1 = 1 ∧
    runParallel 2 (fun _ => default) (fun _ => -1) 2 1 =
      some (searchPoint 2 (fun _ => default) (fun _ => -1) 1) ∧
    (searchPoint 2 (fun _ => default) (fun _ => -1) 1).position =
      ((fun _ => (default : Point)) 1).position ∧
    (searchPoint 2 (fun _ => default) (fun _ => -1) 1).bucket_id =
      ((fun _ => (default : Point)) 1).bucket_id) :=
  ⟨⟨by norm_num, by norm_num⟩,
   result_preserves_fields_written_once 2 (fun _ => default) (fun _ => -1) 2 1
     (by norm_num) (by norm_num)⟩

/-! ## C10: every dereference of the do-while scan stays in bounds -/

/-- Every index dereferenced by one do-while scan started in bounds
    stays in bounds: the loop continues past `k` only when `k + 1 < N`. -/
lemma scanRun_derefs_bound (N : ℕ) (sorted : ℕ → Point) (b0pos : Vec3) (i bIdx : ℕ) :
    ∀ fuel k best, k < N →
      ∀ x ∈ (scanRun N sorted b0pos i bIdx k fuel best).2, x < N := by
  intro fuel
  induction fuel with
  | zero =>
    intro k best hk x hx
    simp only [scanRun] at hx
    split at hx <;> simp at hx <;> omega
  | succ fuel ih =>
    intro k best hk x hx
    simp only [scanRun] at hx
    split at hx
    · rename_i hcond
      rcases List.mem_cons.mp hx with rfl | hx
      · exact hk
      · exact ih (k + 1) _ hcond.2 x hx
    · simp at hx
      omega

/-- The scan dereferences its own start index. -/
lemma scanRun_self_mem (N : ℕ) (sorted : ℕ → Point) (b0pos : Vec3) (i bIdx : ℕ)
    (fuel k : ℕ) (best : Option (ℚ × ℕ)) :
    k ∈ (scanRun N sorted b0pos i bIdx k fuel best).2 := by
  cases fuel <;> simp only [scanRun] <;> split
  · simp
  · simp
  · exact List.mem_cons_self _ _
  · simp

/-- The step function of the 8-bucket loop of `NNApproxSearch`. -/
def searchStep (N : ℕ) (sorted : ℕ → Point) (boundary : ℕ → ℤ) (b0pos : Vec3)
    (i : ℕ) (st : Option (ℚ × ℕ) × List ℕ) (off : Vec3) : Option (ℚ × ℕ) × List ℕ :=
  let bucket_index := fib_hash_offset b0pos off
  let k := boundary bucket_index
  if k = -1 then st
  else
    let r := scanRun N sorted b0pos i bucket_index k.toNat N st.1
    (r.1, st.2 ++ r.2)

/-- `searchScan` is the fold of `searchStep` over the 8 offsets. -/
lemma searchScan_eq_foldl (N : ℕ) (sorted : ℕ → Point) (boundary : ℕ → ℤ) (i : ℕ) :
    searchScan N sorted boundary i =
      hash_bucket_offsets.foldl (searchStep N sorted boundary (sorted i).position i)
        (none, []) := rfl

/-- Folding `searchStep` only appends to the dereference log. -/
lemma searchStep_fold_superset (N : ℕ) (sorted : ℕ → Point) (boundary : ℕ → ℤ)
    (b0pos : Vec3) (i : ℕ) :
    ∀ (offs : List Vec3) (st : Option (ℚ × ℕ) × List ℕ) (x : ℕ), x ∈ st.2 →
      x ∈ (offs.foldl (searchStep N sorted boundary b0pos i) st).2 := by
  intro offs
  induction offs with
  | nil => intro st x hx; exact hx
  | cons off offs ih =>
    intro st x hx
    refine ih _ x ?_
    simp only [searchStep]
    split
    · exact hx
    · exact List.mem_append_left _ hx

/-- All dereferences produced by folding `searchStep` are in bounds,
    provided the boundary entries used are. -/
lemma searchStep_fold_bound (N : ℕ) (sorted : ℕ → Point) (boundary : ℕ → ℤ)
    (b0pos : Vec3) (i : ℕ)
    (Hb : ∀ b, boundary b ≠ -1 → (boundary b).toNat < N) :
    ∀ (offs : List Vec3) (st : Option (ℚ × ℕ) × List ℕ),
      (∀ x ∈ st.2, x < N) →
      ∀ x ∈ (offs.foldl (searchStep N sorted boundary b0pos i) st).2, x < N := by
  intro offs
  induction offs with
  | nil => intro st hst x hx; exact hst x hx
  | cons off offs ih =>
    intro st hst x hx
    refine ih _ ?_ x hx
    simp only [searchStep]
    split
    · exact hst
    · rename_i hne
      intro y hy
      rcases List.mem_append.mp hy with h | h
      · exact hst y h
      · exact scanRun_derefs_bound N sorted b0pos i _ N _ st.1
          (Hb _ hne) y h

/-- Claim C10: under the boundary-table invariant (every non-sentinel
    entry is an in-range index at the first element of its bucket's
    run), every sorted-array index dereferenced inside the do-while
    scans of the search for point `i` lies in `[0, N)` — the scan starts
    at a valid index (the boundary entry, itself dereferenced and in
    bounds) even though each iteration dereferences before that
    iteration's `k < N` test. -/
theorem scan_reads_in_bounds (N : ℕ) (sorted : ℕ → Point) (boundary : ℕ → ℤ) (i : ℕ)
    (Hb : ∀ b, boundary b ≠ -1 →
      0 ≤ boundary b ∧ (boundary b).toNat < N ∧
      (sorted (boundary b).toNat).bucket_id = b ∧
      ((boundary b).toNat = 0 ∨ (sorted ((boundary b).toNat - 1)).bucket_id ≠ b)) :
    (∀ x ∈ searchDerefs N sorted boundary i, x < N) ∧
    (∀ off ∈ hash_bucket_offsets,
      boundary (fib_hash_offset (sorted i).position off) ≠ -1 →
      (boundary (fib_hash_offset (sorted i).position off)).toNat ∈
        searchDerefs N sorted boundary i) := by
  constructor
  · intro x hx
    rw [searchDerefs, searchScan_eq_foldl] at hx
    exact searchStep_fold_bound N sorted boundary (sorted i).position i
      (fun b hb => ((Hb b hb).2).1) hash_bucket_offsets (none, []) (by simp) x hx
  · intro off hoff hne
    rw [searchDerefs, searchScan_eq_foldl]
    have hgen : ∀ (offs : List Vec3) (st : Option (ℚ × ℕ) × List ℕ), off ∈ offs →
        (boundary (fib_hash_offset (sorted i).position off)).toNat ∈
          (offs.foldl (searchStep N sorted boundary (sorted i).position i) st).2 := by
      intro offs
      induction offs with
      | nil => intro st h; simp at h
      | cons o offs ih =>
        intro st hmem
        rcases List.mem_cons.mp hmem with rfl | hmem
        · by_cases hoin : off ∈ offs
          · exact ih _ hoin
          · refine searchStep_fold_superset N sorted boundary (sorted i).position i
              offs _ _ ?_
            simp only [searchStep]
            rw [if_neg hne]
            exact List.mem_append_right _
              (scanRun_self_mem N sorted (sorted i).position i _ N _ st.1)
        · exact ih _ hmem
    exact hgen hash_bucket_offsets (none, []) hoff

/-- A one-point instance used by witnesses: a single point in bucket 5. -/
def wPoint : Point := { position := ⟨0, 0, 0⟩, bucket_id := 5 }

/-- Sorted array of the one-point instance. -/
def wSorted : ℕ → Point := fun _ => wPoint

/-- Boundary table of the one-point instance: bucket 5 starts at 0,
    every other bucket is empty. -/
def wBoundary : ℕ → ℤ := fun b => if b = 5 then 0 else -1

/-- The boundary invariant holds for the one-point instance. -/
lemma wBoundary_invariant :
    ∀ b, wBoundary b ≠ -1 →
      0 ≤ wBoundary b ∧ (wBoundary b).toNat < 1 ∧
      (wSorted (wBoundary b).toNat).bucket_id = b ∧
      ((wBoundary b).toNat = 0 ∨ (wSorted ((wBoundary b).toNat - 1)).bucket_id ≠ b) := by
  intro b hb
  by_cases h : b = 5
  · subst h
    refine ⟨by simp [wBoundary], by simp [wBoundary], by simp [wBoundary, wSorted, wPoint], ?_⟩
    left
    simp [wBoundary]
  · exfalso
    apply hb
    simp [wBoundary, h]

/-- Witness for C10 on the one-point instance. -/
theorem scan_reads_in_bounds_witness :
    (∀ x ∈ searchDerefs 1 wSorted wBoundary 0, x < 1) ∧
    (∀ off ∈ hash_bucket_offsets,
      wBoundary (fib_hash_offset (wSorted 0).position off) ≠ -1 →
      (wBoundary (fib_hash_offset (wSorted 0).position off)).toNat ∈
        searchDerefs 1 wSorted wBoundary 0) :=
  scan_reads_in_bounds 1 wSorted wBoundary 0 wBoundary_invariant

/-! ## Counting-sort lemmas (towards C2 and C3) -/

lemma cnt_nil (b : ℕ) : cnt [] b = 0 := rfl

lemma cnt_cons (p : Point) (l : List Point) (b : ℕ) :
    cnt (p :: l) b = cnt l b + if p.bucket_id = b then 1 else 0 := by
  simp [cnt, List.countP_cons]

lemma cnt_append (l1 l2 : List Point) (b : ℕ) :
    cnt (l1 ++ l2) b = cnt l1 b + cnt l2 b := by
  simp [cnt, List.countP_append]

/-- The counting pass computes the per-bucket count, from any initial
    counter table. -/
lemma countsOf_go (l : List Point) :
    ∀ (f : ℕ → ℕ) (b : ℕ),
      (l.foldl (fun f p => Function.update f p.bucket_id (f p.bucket_id + 1)) f) b =
        f b + cnt l b := by
  induction l with
  | nil => intro f b; simp [cnt_nil]
  | cons p l ih =>
    intro f b
    simp only [List.foldl_cons, ih, cnt_cons]
    by_cases h : p.bucket_id = b
    · subst h
      rw [Function.update_same]
      split_ifs <;> omega
    · rw [Function.update_noteq (by omega)]
      split_ifs <;> omega

/-- The counting pass of `main` computes `cnt`. -/
lemma countsOf_eq (l : List Point) (b : ℕ) : countsOf l b = cnt l b := by
  rw [countsOf, countsOf_go]
  omega

/-- The in-place prefix pass turns counts into inclusive prefix sums on
    `[0, m]` and leaves the rest untouched. -/
lemma prefix_go (m : ℕ) (f : ℕ → ℕ) :
    ∀ b, ((List.range m).foldl
        (fun g i => Function.update g (i + 1) (g (i + 1) + g i)) f) b =
      if b ≤ m then ∑ j in Finset.range (b + 1), f j else f b := by
  induction m with
  | zero =>
    intro b
    by_cases hb : b ≤ 0
    · have : b = 0 := by omega
      subst this
      simp
    · simp [hb]
  | succ m ih =>
    intro b
    rw [List.range_succ, List.foldl_append]
    simp only [List.foldl_cons, List.foldl_nil]
    by_cases hb : b = m + 1
    · subst hb
      rw [Function.update_same, ih, ih]
      rw [if_neg (by omega), if_pos (by omega), if_pos (by omega)]
      conv_rhs => rw [Finset.sum_range_succ]
      omega
    · rw [Function.update_noteq (by omega), ih]
      by_cases h2 : b ≤ m
      · rw [if_pos h2, if_pos (by omega)]
      · rw [if_neg h2, if_neg (by omega)]

/-- The prefix pass over the counting pass yields `cumBelow (b + 1)`
    for every bucket `b < K`. -/
lemma prefixPass_countsOf (K : ℕ) (l : List Point) (b : ℕ) (hb : b < K) :
    prefixPass K (countsOf l) b = cumBelow l (b + 1) := by
  rw [prefixPass, prefix_go (K - 1) (countsOf l) b, if_pos (by omega), cumBelow]
  exact Finset.sum_congr rfl fun j _ => countsOf_eq l j

lemma cumBelow_succ (l : List Point) (b : ℕ) :
    cumBelow l (b + 1) = cumBelow l b + cnt l b :=
  Finset.sum_range_succ (cnt l) b

lemma cumBelow_mono (l : List Point) {b b' : ℕ} (h : b ≤ b') :
    cumBelow l b ≤ cumBelow l b' :=
  Finset.sum_le_sum_of_subset (Finset.range_subset.mpr h)

/-- When every point's id is below `K`, the buckets exhaust the list. -/
lemma cumBelow_total (K : ℕ) (l : List Point) (Hid : ∀ p ∈ l, p.bucket_id < K) :
    cumBelow l K = l.length := by
  induction l with
  | nil => simp [cumBelow, cnt_nil]
  | cons p l ih =>
    have hpK : p.bucket_id < K := Hid p (List.mem_cons_self p l)
    have hl : ∀ q ∈ l, q.bucket_id < K := fun q hq => Hid q (List.mem_cons_of_mem p hq)
    rw [cumBelow]
    have hsum : ∑ j in Finset.range K, cnt (p :: l) j =
        (∑ j in Finset.range K, cnt l j) +
          ∑ j in Finset.range K, (if p.bucket_id = j then 1 else 0) := by
      rw [← Finset.sum_add_distrib]
      exact Finset.sum_congr rfl fun j _ => cnt_cons p l j
    rw [hsum]
    have hind : ∑ j in Finset.range K, (if p.bucket_id = j then 1 else 0) = 1 := by
      rw [Finset.sum_ite_eq (Finset.range K) p.bucket_id fun _ => 1]
      rw [if_pos (Finset.mem_range.mpr hpK)]
    rw [hind, ← cumBelow, ih hl]
    simp

/-- A prefix of the input never holds more points of a bucket than the
    whole input. -/
lemma cnt_prefix_le (l q l2 : List Point) (h : l = q ++ l2) (b : ℕ) :
    cnt q b ≤ cnt l b := by
  subst h
  rw [cnt_append]
  omega

/-- Removing the written-slot update: `filterMap` over a duplicate-free
    index list containing the fresh slot `c` gains exactly the newly
    placed point. -/
lemma filterMap_update_mem (out : ℕ → Option Point) (p : Point) (c : ℕ)
    (hout : out c = none) :
    ∀ L : List ℕ, L.Nodup → c ∈ L →
      ((L.filterMap (Function.update out c (some p)) : List Point) : Multiset Point) =
        p ::ₘ ((L.filterMap out : List Point) : Multiset Point) := by
  intro L
  induction L with
  | nil => intro _ h; simp at h
  | cons a L ih =>
    intro hnd hc
    have hnd2 := List.nodup_cons.mp hnd
    by_cases hca : c = a
    · subst hca
      have hrest : L.filterMap (Function.update out c (some p)) = L.filterMap out := by
        apply List.filterMap_congr
        intro x hx
        have hxc : x ≠ c := fun hxeq => hnd2.1 (hxeq ▸ hx)
        rw [Function.update_noteq hxc]
      rw [List.filterMap_cons_some (by rw [Function.update_same]),
        List.filterMap_cons_none hout, hrest]
      simp
    · have hcL : c ∈ L := by
        rcases List.mem_cons.mp hc with h | h
        · exact absurd h hca
        · exact h
      have hac : a ≠ c := fun h => hca h.symm
      cases ha : out a with
      | none =>
        rw [List.filterMap_cons_none (by rw [Function.update_noteq hac]; exact ha),
          List.filterMap_cons_none ha]
        exact ih hnd2.2 hcL
      | some v =>
        rw [List.filterMap_cons_some (by rw [Function.update_noteq hac]; exact ha),
          List.filterMap_cons_some ha]
        rw [← Multiset.cons_coe, ← Multiset.cons_coe, ih hnd2.2 hcL]
        exact (Multiset.cons_swap v p _)

/-- Every index below the total lives in exactly one bucket's slot
    range. -/
lemma exists_bucket (l : List Point) :
    ∀ K i, i < cumBelow l K → ∃ b, b < K ∧ cumBelow l b ≤ i ∧ i < cumBelow l (b + 1) := by
  intro K
  induction K with
  | zero => intro i hi; simp [cumBelow] at hi
  | succ K ih =>
    intro i hi
    by_cases h : i < cumBelow l K
    · rcases ih i h with ⟨b, hb, h1, h2⟩
      exact ⟨b, by omega, h1, h2⟩
    · exact ⟨K, by omega, by omega, hi⟩

lemma cnt_singleton (p : Point) (b : ℕ) :
    cnt [p] b = if p.bucket_id = b then 1 else 0 := by
  rw [show [p] = p :: ([] : List Point) from rfl, cnt_cons, cnt_nil]
  omega

/-- Invariant of the placement loop after processing the prefix `q` of
    the input `l`: the counter of each bucket sits at the next free slot
    of its range (from the top), written slots are characterised by
    their bucket's range, the filled part of each range is its top
    segment, and the written points are exactly the prefix. -/
structure SortInv (K : ℕ) (l q : List Point) (st : (ℕ → ℕ) × (ℕ → Option Point)) : Prop where
  ctr_eq : ∀ b, b < K → st.1 b = cumBelow l (b + 1) - cnt q b
  out_char : ∀ i p, st.2 i = some p → p.bucket_id < K ∧
    cumBelow l (p.bucket_id + 1) - cnt q p.bucket_id ≤ i ∧ i < cumBelow l (p.bucket_id + 1)
  out_filled : ∀ b, b < K → ∀ i, cumBelow l (b + 1) - cnt q b ≤ i →
    i < cumBelow l (b + 1) → ∃ p, st.2 i = some p ∧ p.bucket_id = b
  out_perm : ((List.range l.length).filterMap st.2 : Multiset Point) = (q : Multiset Point)

/-- One placement step preserves the invariant. -/
lemma place_step_inv (K : ℕ) (l q l2 : List Point) (p : Point)
    (Hid : ∀ r ∈ l, r.bucket_id < K)
    (hl : l = q ++ p :: l2) (st : (ℕ → ℕ) × (ℕ → Option Point))
    (h : SortInv K l q st) : SortInv K l (q ++ [p]) (placeStep st p) := by
  have hpl : p ∈ l := by
    rw [hl]
    exact List.mem_append_right q (List.mem_cons_self p l2)
  have hb0 : p.bucket_id < K := Hid p hpl
  have hcnt : cnt q p.bucket_id + cnt l2 p.bucket_id + 1 = cnt l p.bucket_id := by
    rw [hl, cnt_append, cnt_cons, if_pos rfl]
    omega
  have hcS : cumBelow l (p.bucket_id + 1) = cumBelow l p.bucket_id + cnt l p.bucket_id :=
    cumBelow_succ l p.bucket_id
  have hctr : st.1 p.bucket_id = cumBelow l (p.bucket_id + 1) - cnt q p.bucket_id :=
    h.ctr_eq p.bucket_id hb0
  set c := st.1 p.bucket_id - 1 with hc
  have hcl : cumBelow l p.bucket_id ≤ c := by omega
  have hcu : c < cumBelow l (p.bucket_id + 1) := by omega
  have hcval : c + (cnt q p.bucket_id + 1) = cumBelow l (p.bucket_id + 1) := by omega
  have hqle : ∀ b, cnt q b ≤ cnt l b := by
    intro b
    exact cnt_prefix_le l q (p :: l2) hl b
  have hfresh : st.2 c = none := by
    cases hsc : st.2 c with
    | none => rfl
    | some p' =>
      exfalso
      obtain ⟨hb', hlo, hhi⟩ := h.out_char c p' hsc
      rcases Nat.lt_trichotomy p'.bucket_id p.bucket_id with hlt | heq | hgt
      · have : cumBelow l (p'.bucket_id + 1) ≤ cumBelow l p.bucket_id :=
          cumBelow_mono l (by omega)
        omega
      · rw [heq] at hlo
        omega
      · have h1 : cumBelow l (p.bucket_id + 1) ≤ cumBelow l p'.bucket_id :=
          cumBelow_mono l (by omega)
        have h2 : cumBelow l (p'.bucket_id + 1) =
            cumBelow l p'.bucket_id + cnt l p'.bucket_id := cumBelow_succ l p'.bucket_id
        have h3 := hqle p'.bucket_id
        omega
  have hcntq : ∀ b, cnt (q ++ [p]) b = cnt q b + if p.bucket_id = b then 1 else 0 := by
    intro b
    rw [cnt_append, cnt_singleton]
  refine ⟨?_, ?_, ?_, ?_⟩
  · intro b hb
    show Function.update st.1 p.bucket_id c b = _
    by_cases hbb : b = p.bucket_id
    · subst hbb
      rw [Function.update_same, hcntq, if_pos rfl]
      omega
    · rw [Function.update_noteq hbb, h.ctr_eq b hb, hcntq, if_neg (by omega)]
      omega
  · intro i p' hsome
    have hsome' : Function.update st.2 c (some p) i = some p' := hsome
    by_cases hic : i = c
    · subst hic
      rw [Function.update_same] at hsome'
      cases hsome'
      refine ⟨hb0, ?_, hcu⟩
      rw [hcntq, if_pos rfl]
      omega
    · rw [Function.update_noteq hic] at hsome'
      obtain ⟨hb', hlo, hhi⟩ := h.out_char i p' hsome'
      refine ⟨hb', ?_, hhi⟩
      have : cnt (q ++ [p]) p'.bucket_id = cnt q p'.bucket_id ∨
          cnt (q ++ [p]) p'.bucket_id = cnt q p'.bucket_id + 1 := by
        rw [hcntq]
        split_ifs <;> omega
      omega
  · intro b hb i hlo hhi
    by_cases hbb : b = p.bucket_id
    · subst hbb
      rw [hcntq, if_pos rfl] at hlo
      by_cases hic : i = c
      · subst hic
        exact ⟨p, by rw [show (placeStep st p).2 = Function.update st.2 c (some p) from rfl,
            Function.update_same], rfl⟩
      · have hold : cumBelow l (p.bucket_id + 1) - cnt q p.bucket_id ≤ i := by omega
        obtain ⟨p'', hsome, hid⟩ := h.out_filled p.bucket_id hb i hold hhi
        exact ⟨p'', by rw [show (placeStep st p).2 = Function.update st.2 c (some p) from rfl,
            Function.update_noteq hic]; exact hsome, hid⟩
    · rw [hcntq, if_neg (by omega)] at hlo
      obtain ⟨p'', hsome, hid⟩ := h.out_filled b hb i hlo hhi
      have hic : i ≠ c := by
        have h4 := hqle b
        have h5 : cumBelow l (b + 1) = cumBelow l b + cnt l b := cumBelow_succ l b
        rcases Nat.lt_trichotomy b p.bucket_id with hlt | heq | hgt
        · have : cumBelow l (b + 1) ≤ cumBelow l p.bucket_id := cumBelow_mono l (by omega)
          omega
        · exact absurd heq hbb
        · have : cumBelow l (p.bucket_id + 1) ≤ cumBelow l b := cumBelow_mono l (by omega)
          omega
      exact ⟨p'', by rw [show (placeStep st p).2 = Function.update st.2 c (some p) from rfl,
          Function.update_noteq hic]; exact hsome, hid⟩
  · have hcN : c < l.length := by
      have h1 : cumBelow l (p.bucket_id + 1) ≤ cumBelow l K := cumBelow_mono l (by omega)
      have h2 := cumBelow_total K l Hid
      omega
    show ((List.range l.length).filterMap (Function.update st.2 c (some p)) :
        List Point) = ((q ++ [p] : List Point) : Multiset Point)
    rw [filterMap_update_mem st.2 p c hfresh (List.range l.length)
      (List.nodup_range l.length) (List.mem_range.mpr hcN)]
    rw [h.out_perm, Multiset.cons_coe]
    exact Multiset.coe_eq_coe.mpr (List.perm_append_singleton p q).symm

/-- Folding the placement over the rest of the input preserves the
    invariant. -/
lemma place_inv_all (K : ℕ) (l : List Point) (Hid : ∀ r ∈ l, r.bucket_id < K) :
    ∀ (l2 q : List Point) (st : (ℕ → ℕ) × (ℕ → Option Point)),
      l = q ++ l2 → SortInv K l q st →
      SortInv K l (q ++ l2) (l2.foldl placeStep st) := by
  intro l2
  induction l2 with
  | nil =>
    intro q st _ h
    simpa using h
  | cons p l2 ih =>
    intro q st hl h
    have step := place_step_inv K l q l2 p Hid hl st h
    have hl2 : l = (q ++ [p]) ++ l2 := by rw [hl]; simp
    have := ih (q ++ [p]) (placeStep st p) hl2 step
    simpa using this

/-- The invariant holds before placement starts. -/
lemma sortInv_init (K : ℕ) (l : List Point) :
    SortInv K l [] (prefixPass K (countsOf l), fun _ => none) := by
  refine ⟨?_, ?_, ?_, ?_⟩
  · intro b hb
    show prefixPass K (countsOf l) b = cumBelow l (b + 1) - cnt [] b
    rw [prefixPass_countsOf K l b hb, cnt_nil]
    omega
  · intro i p h
    simp at h
  · intro b hb i hlo hhi
    rw [cnt_nil] at hlo
    omega
  · simp

/-- The invariant at the end of the whole placement loop. -/
lemma sortInv_final (K : ℕ) (l : List Point) (Hid : ∀ r ∈ l, r.bucket_id < K) :
    SortInv K l l (countingSort K l) := by
  have := place_inv_all K l Hid l []
    (prefixPass K (countsOf l), fun _ => none) (by simp) (sortInv_init K l)
  simpa [countingSort] using this

/-! ## C2: the sort permutes the input and groups buckets contiguously -/

/-- Claim C2: when every point's bucket id is below `K`, the counting
    sort fills every slot of `[0, N)`, the written points are a
    permutation (multiset equality) of the input, and all points of any
    one bucket id occupy a single contiguous index range (any slot
    between two slots of the same id carries that id). -/
theorem counting_sort_permutes_and_groups (K : ℕ) (l : List Point)
    (Hid : ∀ p ∈ l, p.bucket_id < K) :
    ((List.range l.length).filterMap (countingSort K l).2 : Multiset Point) =
        (l : Multiset Point) ∧
    (∀ i, i < l.length → ∃ p, (countingSort K l).2 i = some p) ∧
    (∀ i j k p r, i ≤ j → j ≤ k →
      (countingSort K l).2 i = some p → (countingSort K l).2 k = some r →
      p.bucket_id = r.bucket_id →
      ∃ s, (countingSort K l).2 j = some s ∧ s.bucket_id = p.bucket_id) := by
  have hinv := sortInv_final K l Hid
  refine ⟨hinv.out_perm, ?_, ?_⟩
  · intro i hi
    have hiK : i < cumBelow l K := by rw [cumBelow_total K l Hid]; exact hi
    obtain ⟨b, hbK, h1, h2⟩ := exists_bucket l K i hiK
    have hS : cumBelow l (b + 1) = cumBelow l b + cnt l b := cumBelow_succ l b
    obtain ⟨p, hp, _⟩ := hinv.out_filled b hbK i (by omega) h2
    exact ⟨p, hp⟩
  · intro i j k p r hij hjk hpi hrk hbid
    obtain ⟨hbK, hlo_i, hhi_i⟩ := hinv.out_char i p hpi
    obtain ⟨_, hlo_k, hhi_k⟩ := hinv.out_char k r hrk
    rw [← hbid] at hlo_k hhi_k
    have hS : cumBelow l (p.bucket_id + 1) =
        cumBelow l p.bucket_id + cnt l p.bucket_id := cumBelow_succ l p.bucket_id
    obtain ⟨s, hs, hsid⟩ := hinv.out_filled p.bucket_id hbK j (by omega) (by omega)
    exact ⟨s, hs, hsid⟩

/-- Witness for C2: two points, swapped bucket order, `K = 2`. -/
theorem counting_sort_permutes_and_groups_witness :
    (∀ p ∈ [({ position := ⟨1, 0, 0⟩, bucket_id := 1 } : Point),
             ({ position := ⟨0, 1, 0⟩, bucket_id := 0 } : Point)], p.bucket_id < 2) ∧
    (((List.range ([({ position := ⟨1, 0, 0⟩, bucket_id := 1 } : Point),
        ({ position := ⟨0, 1, 0⟩, bucket_id := 0 } : Point)] : List Point).length).filterMap
        (countingSort 2 [({ position := ⟨1, 0, 0⟩, bucket_id := 1 } : Point),
          ({ position := ⟨0, 1, 0⟩, bucket_id := 0 } : Point)]).2 : Multiset Point) =
        ([({ position := ⟨1, 0, 0⟩, bucket_id := 1 } : Point),
          ({ position := ⟨0, 1, 0⟩, bucket_id := 0 } : Point)] : Multiset Point) ∧
    (∀ i, i < ([({ position := ⟨1, 0, 0⟩, bucket_id := 1 } : Point),
        ({ position := ⟨0, 1, 0⟩, bucket_id := 0 } : Point)] : List Point).length →
      ∃ p, (countingSort 2 [({ position := ⟨1, 0, 0⟩, bucket_id := 1 } : Point),
        ({ position := ⟨0, 1, 0⟩, bucket_id := 0 } : Point)]).2 i = some p) ∧
    (∀ i j k p r, i ≤ j → j ≤ k →
      (countingSort 2 [({ position := ⟨1, 0, 0⟩, bucket_id := 1 } : Point),
        ({ position := ⟨0, 1, 0⟩, bucket_id := 0 } : Point)]).2 i = some p →
      (countingSort 2 [({ position := ⟨1, 0, 0⟩, bucket_id := 1 } : Point),
        ({ position := ⟨0, 1, 0⟩, bucket_id := 0 } : Point)]).2 k = some r →
      p.bucket_id = r.bucket_id →
      ∃ s, (countingSort 2 [({ position := ⟨1, 0, 0⟩, bucket_id := 1 } : Point),
        ({ position := ⟨0, 1, 0⟩, bucket_id := 0 } : Point)]).2 j = some s ∧
        s.bucket_id = p.bucket_id)) :=
  ⟨by decide,
   counting_sort_permutes_and_groups 2
     [({ position := ⟨1, 0, 0⟩, bucket_id := 1 } : Point),
      ({ position := ⟨0, 1, 0⟩, bucket_id := 0 } : Point)] (by decide)⟩

/-! ## C3: boundary table correctness -/

/-- Every written slot of the sort is read back by `sortedArr`. -/
lemma sortedArr_filled (K : ℕ) (l : List Point) (Hid : ∀ p ∈ l, p.bucket_id < K) :
    ∀ i, i < l.length → (countingSort K l).2 i = some (sortedArr K l i) := by
  intro i hi
  obtain ⟨p, hp⟩ := (counting_sort_permutes_and_groups K l Hid).2.1 i hi
  rw [hp, sortedArr, hp]
  rfl

/-- Bucket ids of the sorted array as read are below `K` in range. -/
lemma sortedArr_idK (K : ℕ) (l : List Point) (Hid : ∀ p ∈ l, p.bucket_id < K) :
    ∀ i, i < l.length → (sortedArr K l i).bucket_id < K := by
  intro i hi
  have hfill := sortedArr_filled K l Hid i hi
  exact ((sortInv_final K l Hid).out_char i _ hfill).1

/-- Bucket ids are non-decreasing along the sorted array. -/
lemma sortedArr_mono (K : ℕ) (l : List Point) (Hid : ∀ p ∈ l, p.bucket_id < K) :
    ∀ i j, i ≤ j → j < l.length →
      (sortedArr K l i).bucket_id ≤ (sortedArr K l j).bucket_id := by
  intro i j hij hj
  have hi : i < l.length := by omega
  have hfi := sortedArr_filled K l Hid i hi
  have hfj := sortedArr_filled K l Hid j hj
  obtain ⟨_, hloi, hhii⟩ := (sortInv_final K l Hid).out_char i _ hfi
  obtain ⟨_, hloj, hhij⟩ := (sortInv_final K l Hid).out_char j _ hfj
  by_contra hlt
  push_neg at hlt
  have h1 : cumBelow l ((sortedArr K l j).bucket_id + 1) ≤
      cumBelow l (sortedArr K l i).bucket_id := cumBelow_mono l (by omega)
  have h2 : cumBelow l ((sortedArr K l i).bucket_id + 1) =
      cumBelow l (sortedArr K l i).bucket_id + cnt l (sortedArr K l i).bucket_id :=
    cumBelow_succ l _
  have h3 : cnt l (sortedArr K l i).bucket_id ≤ cnt l (sortedArr K l i).bucket_id := le_rfl
  omega

/-- Invariant of the boundary-building loop after processing the first
    `m` sorted entries: `current` is the id of the last entry seen (or
    the `K + 1` sentinel at the start), and each table entry is either
    the -1 sentinel with its bucket unseen, or the local-first index of
    its bucket among the processed prefix. -/
def BoundaryInv (K : ℕ) (sorted : ℕ → Point) (m : ℕ) (st : (ℕ → ℤ) × ℕ) : Prop :=
  ((m = 0 ∧ st.2 = K + 1) ∨ (0 < m ∧ st.2 = (sorted (m - 1)).bucket_id)) ∧
  (∀ b, (st.1 b = -1 ∧ ∀ i, i < m → (sorted i).bucket_id ≠ b) ∨
    (∃ s : ℕ, st.1 b = (s : ℤ) ∧ s < m ∧ (sorted s).bucket_id = b ∧
      (s = 0 ∨ (sorted (s - 1)).bucket_id ≠ b)))

/-- The boundary loop maintains its invariant over any monotone sorted
    array with in-range ids. -/
lemma boundary_inv_all (N K : ℕ) (sorted : ℕ → Point)
    (Hmono : ∀ i j, i ≤ j → j < N → (sorted i).bucket_id ≤ (sorted j).bucket_id)
    (HidK : ∀ i, i < N → (sorted i).bucket_id < K) :
    ∀ m, m ≤ N →
      BoundaryInv K sorted m
        ((List.range m).foldl (boundaryStep K sorted) (fun _ => (-1 : ℤ), K + 1)) := by
  intro m
  induction m with
  | zero =>
    intro _
    exact ⟨Or.inl ⟨rfl, rfl⟩, fun b => Or.inl ⟨rfl, by omega⟩⟩
  | succ m ih =>
    intro hm
    obtain ⟨h1, h2⟩ := ih (by omega)
    rw [List.range_succ, List.foldl_append]
    simp only [List.foldl_cons, List.foldl_nil]
    set st := (List.range m).foldl (boundaryStep K sorted) (fun _ => (-1 : ℤ), K + 1)
      with hst
    have hbmK : (sorted m).bucket_id < K := HidK m (by omega)
    simp only [boundaryStep]
    by_cases hcond : (sorted m).bucket_id > st.2 ∨ st.2 = K + 1
    · rw [if_pos hcond]
      refine ⟨Or.inr ⟨by omega, by simp⟩, ?_⟩
      intro b
      by_cases hb : b = (sorted m).bucket_id
      · subst hb
        right
        refine ⟨m, Function.update_same _ _ _, by omega, rfl, ?_⟩
        by_cases hm0 : m = 0
        · exact Or.inl hm0
        · right
          rcases h1 with ⟨hm0', _⟩ | ⟨hpos, hcur⟩
          · omega
          · have hprevK : (sorted (m - 1)).bucket_id < K := HidK (m - 1) (by omega)
            rcases hcond with hgt | hKK
            · rw [hcur] at hgt
              omega
            · rw [hcur] at hKK
              omega
      · rcases h2 b with ⟨hneg, hall⟩ | ⟨s, hs, hsm, hsid, hfirst⟩
        · left
          constructor
          · show Function.update st.1 (sorted m).bucket_id ((m : ℕ) : ℤ) b = -1
            rw [Function.update_noteq hb]
            exact hneg
          · intro i hi
            by_cases him : i < m
            · exact hall i him
            · have : i = m := by omega
              subst this
              exact fun hc => hb hc.symm
        · right
          refine ⟨s, ?_, by omega, hsid, hfirst⟩
          show Function.update st.1 (sorted m).bucket_id ((m : ℕ) : ℤ) b = (s : ℤ)
          rw [Function.update_noteq hb]
          exact hs
    · rw [if_neg hcond]
      push_neg at hcond
      rcases h1 with ⟨hm0, hK⟩ | ⟨hpos, hcur⟩
      · exact absurd hK hcond.2
      · have heq : (sorted m).bucket_id = (sorted (m - 1)).bucket_id := by
          have hmono1 : (sorted (m - 1)).bucket_id ≤ (sorted m).bucket_id :=
            Hmono (m - 1) m (by omega) (by omega)
          have hle := hcond.1
          rw [hcur] at hle
          omega
        refine ⟨Or.inr ⟨by omega, ?_⟩, ?_⟩
        · rw [hcur]
          have hm1 : m + 1 - 1 = m := by omega
          rw [hm1, heq]
        · intro b
          rcases h2 b with ⟨hneg, hall⟩ | ⟨s, hs, hsm, hsid, hfirst⟩
          · left
            refine ⟨hneg, ?_⟩
            intro i hi
            by_cases him : i < m
            · exact hall i him
            · have him2 : i = m := by omega
              rw [him2, heq]
              exact hall (m - 1) (by omega)
          · right
            exact ⟨s, hs, by omega, hsid, hfirst⟩

/-- The boundary table of any monotone in-range sorted array: sentinel
    for absent buckets, local-first (hence global-first) index for
    present ones. -/
lemma boundaryPass_spec (N K : ℕ) (sorted : ℕ → Point)
    (Hmono : ∀ i j, i ≤ j → j < N → (sorted i).bucket_id ≤ (sorted j).bucket_id)
    (HidK : ∀ i, i < N → (sorted i).bucket_id < K) :
    ∀ b,
      ((∀ i, i < N → (sorted i).bucket_id ≠ b) → boundaryPass N K sorted b = -1) ∧
      (∀ i, i < N → (sorted i).bucket_id = b →
        ∃ s : ℕ, boundaryPass N K sorted b = (s : ℤ) ∧ s < N ∧
          (sorted s).bucket_id = b ∧ (s = 0 ∨ (sorted (s - 1)).bucket_id ≠ b)) := by
  intro b
  obtain ⟨_, h2⟩ := boundary_inv_all N K sorted Hmono HidK N le_rfl
  constructor
  · intro hnone
    rcases h2 b with ⟨hneg, _⟩ | ⟨s, _, hsm, hsid, _⟩
    · exact hneg
    · exact absurd hsid (hnone s hsm)
  · intro i hi hib
    rcases h2 b with ⟨_, hall⟩ | ⟨s, hs, hsm, hsid, hfirst⟩
    · exact absurd hib (hall i hi)
    · exact ⟨s, hs, hsm, hsid, hfirst⟩

/-- Claim C3: after the sort and boundary phases, for every bucket
    `b < K`: if no sorted entry carries `b` then `boundaries[b]` is the
    -1 sentinel, and if some entry carries `b` then `boundaries[b]` is
    an in-range index of the first element of `b`'s contiguous run
    (its point has id `b`, and it is either index 0 or preceded by a
    different id). -/
theorem boundary_table_correct (K : ℕ) (l : List Point)
    (Hid : ∀ p ∈ l, p.bucket_id < K) :
    ∀ b, b < K →
      ((∀ i, i < l.length → (sortedArr K l i).bucket_id ≠ b) →
        boundaryPass l.length K (sortedArr K l) b = -1) ∧
      (∀ i, i < l.length → (sortedArr K l i).bucket_id = b →
        ∃ s : ℕ, boundaryPass l.length K (sortedArr K l) b = (s : ℤ) ∧ s < l.length ∧
          (sortedArr K l s).bucket_id = b ∧
          (s = 0 ∨ (sortedArr K l (s - 1)).bucket_id ≠ b)) := by
  intro b _
  exact boundaryPass_spec l.length K (sortedArr K l)
    (sortedArr_mono K l Hid) (sortedArr_idK K l Hid) b

/-- Witness for C3 on the two-point instance of the C2 witness. -/
theorem boundary_table_correct_witness :
    (∀ p ∈ [({ position := ⟨1, 0, 0⟩, bucket_id := 1 } : Point),
            ({ position := ⟨0, 1, 0⟩, bucket_id := 0 } : Point)], p.bucket_id < 2) ∧
    (∀ b, b < 2 →
      ((∀ i, i < ([({ position := ⟨1, 0, 0⟩, bucket_id := 1 } : Point),
          ({ position := ⟨0, 1, 0⟩, bucket_id := 0 } : Point)] : List Point).length →
        (sortedArr 2 [({ position := ⟨1, 0, 0⟩, bucket_id := 1 } : Point),
          ({ position := ⟨0, 1, 0⟩, bucket_id := 0 } : Point)] i).bucket_id ≠ b) →
        boundaryPass 2 2 (sortedArr 2 [({ position := ⟨1, 0, 0⟩, bucket_id := 1 } : Point),
          ({ position := ⟨0, 1, 0⟩, bucket_id := 0 } : Point)]) b = -1) ∧
      (∀ i, i < ([({ position := ⟨1, 0, 0⟩, bucket_id := 1 } : Point),
          ({ position := ⟨0, 1, 0⟩, bucket_id := 0 } : Point)] : List Point).length →
        (sortedArr 2 [({ position := ⟨1, 0, 0⟩, bucket_id := 1 } : Point),
          ({ position := ⟨0, 1, 0⟩, bucket_id := 0 } : Point)] i).bucket_id = b →
        ∃ s : ℕ, boundaryPass 2 2 (sortedArr 2 [({ position := ⟨1, 0, 0⟩, bucket_id := 1 } : Point),
            ({ position := ⟨0, 1, 0⟩, bucket_id := 0 } : Point)]) b = (s : ℤ) ∧
          s < ([({ position := ⟨1, 0, 0⟩, bucket_id := 1 } : Point),
            ({ position := ⟨0, 1, 0⟩, bucket_id := 0 } : Point)] : List Point).length ∧
          (sortedArr 2 [({ position := ⟨1, 0, 0⟩, bucket_id := 1 } : Point),
            ({ position := ⟨0, 1, 0⟩, bucket_id := 0 } : Point)] s).bucket_id = b ∧
          (s = 0 ∨ (sortedArr 2 [({ position := ⟨1, 0, 0⟩, bucket_id := 1 } : Point),
            ({ position := ⟨0, 1, 0⟩, bucket_id := 0 } : Point)] (s - 1)).bucket_id ≠ b))) := by
  constructor
  · decide
  · have h := boundary_table_correct 2
      [({ position := ⟨1, 0, 0⟩, bucket_id := 1 } : Point),
       ({ position := ⟨0, 1, 0⟩, bucket_id := 0 } : Point)] (by decide)
    simpa using h

/-! ## C1: the search returns a closest candidate (infrastructure) -/

/-- The per-index body of the do-while scan: update the running minimum
    when the scanned index is not the query point and carries the
    candidate bucket id. -/
def scanGuard (sorted : ℕ → Point) (b0pos : Vec3) (i bIdx : ℕ)
    (best : Option (ℚ × ℕ)) (k : ℕ) : Option (ℚ × ℕ) :=
  if i ≠ k ∧ (sorted k).bucket_id = bIdx then updBest b0pos best k (sorted k).position
  else best

/-- The scan's running minimum is the guarded fold over the dereferenced
    indices. -/
lemma scanRun_fst_eq (N : ℕ) (sorted : ℕ → Point) (b0pos : Vec3) (i bIdx : ℕ) :
    ∀ fuel k best,
      (scanRun N sorted b0pos i bIdx k fuel best).1 =
        (scanRun N sorted b0pos i bIdx k fuel best).2.foldl
          (scanGuard sorted b0pos i bIdx) best := by
  intro fuel
  induction fuel with
  | zero =>
    intro k best
    simp only [scanRun]
    split <;> rfl
  | succ fuel ih =>
    intro k best
    simp only [scanRun]
    split
    · rw [List.foldl_cons]
      exact ih (k + 1) _
    · rfl

/-- Minimum semantics of the guarded fold: it is `none` exactly when it
    started as `none` and saw no admissible index, and any `some`
    result is an admissible minimum over the scanned indices that also
    improves on the initial state. -/
lemma foldGuard_spec (sorted : ℕ → Point) (b0pos : Vec3) (i bIdx : ℕ) :
    ∀ (L : List ℕ) (best : Option (ℚ × ℕ)),
      ((L.foldl (scanGuard sorted b0pos i bIdx) best = none ↔
        best = none ∧ ∀ k ∈ L, ¬(i ≠ k ∧ (sorted k).bucket_id = bIdx)) ∧
      (∀ d j, L.foldl (scanGuard sorted b0pos i bIdx) best = some (d, j) →
        (best = some (d, j) ∨
          (j ∈ L ∧ (i ≠ j ∧ (sorted j).bucket_id = bIdx) ∧
            d = dist2 (sorted j).position b0pos)) ∧
        (∀ k ∈ L, (i ≠ k ∧ (sorted k).bucket_id = bIdx) →
          d ≤ dist2 (sorted k).position b0pos) ∧
        (∀ bd bj, best = some (bd, bj) → d ≤ bd))) := by
  intro L
  induction L with
  | nil =>
    intro best
    refine ⟨by simp, ?_⟩
    intro d j hfold
    simp only [List.foldl_nil] at hfold
    refine ⟨Or.inl hfold, by simp, ?_⟩
    intro bd bj hb
    rw [hb] at hfold
    cases hfold
    exact le_rfl
  | cons a L ih =>
    intro best
    rw [List.foldl_cons]
    by_cases hg : i ≠ a ∧ (sorted a).bucket_id = bIdx
    · have hstep : scanGuard sorted b0pos i bIdx best a =
          updBest b0pos best a (sorted a).position := by
        rw [scanGuard, if_pos hg]
      rw [hstep]
      cases best with
      | none =>
        have hupd : updBest b0pos none a (sorted a).position =
            some (dist2 (sorted a).position b0pos, a) := rfl
        rw [hupd]
        obtain ⟨hnone, hsome⟩ := ih (some (dist2 (sorted a).position b0pos, a))
        constructor
        · rw [hnone]
          constructor
          · rintro ⟨h, _⟩
            exact absurd h (by simp)
          · rintro ⟨_, h2⟩
            exact absurd hg (h2 a (List.mem_cons_self a L))
        · intro d j hfold
          obtain ⟨hprov, hmin, hini⟩ := hsome d j hfold
          have hda : d ≤ dist2 (sorted a).position b0pos := hini _ _ rfl
          refine ⟨?_, ?_, ?_⟩
          · rcases hprov with hpe | ⟨hjL, hga, hde⟩
            · right
              cases hpe
              exact ⟨List.mem_cons_self a L, hg, rfl⟩
            · exact Or.inr ⟨List.mem_cons_of_mem a hjL, hga, hde⟩
          · intro k hk hgk
            rcases List.mem_cons.mp hk with rfl | hkL
            · exact hda
            · exact hmin k hkL hgk
          · intro bd bj hbe
            cases hbe
      | some pr =>
        obtain ⟨bd0, bj0⟩ := pr
        by_cases hlt : dist2 (sorted a).position b0pos < bd0
        · have hupd : updBest b0pos (some (bd0, bj0)) a (sorted a).position =
              some (dist2 (sorted a).position b0pos, a) := by
            rw [updBest]
            simp only [if_pos hlt]
          rw [hupd]
          obtain ⟨hnone, hsome⟩ := ih (some (dist2 (sorted a).position b0pos, a))
          constructor
          · rw [hnone]
            simp
          · intro d j hfold
            obtain ⟨hprov, hmin, hini⟩ := hsome d j hfold
            have hda : d ≤ dist2 (sorted a).position b0pos := hini _ _ rfl
            refine ⟨?_, ?_, ?_⟩
            · rcases hprov with hpe | ⟨hjL, hga, hde⟩
              · right
                cases hpe
                exact ⟨List.mem_cons_self a L, hg, rfl⟩
              · exact Or.inr ⟨List.mem_cons_of_mem a hjL, hga, hde⟩
            · intro k hk hgk
              rcases List.mem_cons.mp hk with rfl | hkL
              · exact hda
              · exact hmin k hkL hgk
            · intro bd bj hbe
              have hbd : bd0 = bd := by
                cases hbe
                rfl
              rw [← hbd]
              calc d ≤ dist2 (sorted a).position b0pos := hda
                _ ≤ bd0 := le_of_lt hlt
        · have hupd : updBest b0pos (some (bd0, bj0)) a (sorted a).position =
              some (bd0, bj0) := by
            rw [updBest]
            simp only [if_neg hlt]
          rw [hupd]
          obtain ⟨hnone, hsome⟩ := ih (some (bd0, bj0))
          constructor
          · rw [hnone]
            simp
          · intro d j hfold
            obtain ⟨hprov, hmin, hini⟩ := hsome d j hfold
            have hda : d ≤ bd0 := hini _ _ rfl
            refine ⟨?_, ?_, ?_⟩
            · rcases hprov with hpe | ⟨hjL, hga, hde⟩
              · exact Or.inl hpe
              · exact Or.inr ⟨List.mem_cons_of_mem a hjL, hga, hde⟩
            · intro k hk hgk
              rcases List.mem_cons.mp hk with rfl | hkL
              · calc d ≤ bd0 := hda
                  _ ≤ dist2 (sorted k).position b0pos := le_of_not_lt hlt
              · exact hmin k hkL hgk
            · intro bd bj hbe
              cases hbe
              exact hda
    · have hstep : scanGuard sorted b0pos i bIdx best a = best := by
        rw [scanGuard, if_neg hg]
      rw [hstep]
      obtain ⟨hnone, hsome⟩ := ih best
      constructor
      · rw [hnone]
        constructor
        · rintro ⟨h1, h2⟩
          refine ⟨h1, ?_⟩
          intro k hk
          rcases List.mem_cons.mp hk with rfl | hkL
          · exact hg
          · exact h2 k hkL
        · rintro ⟨h1, h2⟩
          exact ⟨h1, fun k hk => h2 k (List.mem_cons_of_mem a hk)⟩
      · intro d j hfold
        obtain ⟨hprov, hmin, hini⟩ := hsome d j hfold
        refine ⟨?_, ?_, hini⟩
        · rcases hprov with hpe | ⟨hjL, hga, hde⟩
          · exact Or.inl hpe
          · exact Or.inr ⟨List.mem_cons_of_mem a hjL, hga, hde⟩
        · intro k hk hgk
          rcases List.mem_cons.mp hk with rfl | hkL
          · exact absurd hgk hg
          · exact hmin k hkL hgk

/-- Scanned indices never precede the start index. -/
lemma scanRun_derefs_ge (N : ℕ) (sorted : ℕ → Point) (b0pos : Vec3) (i bIdx : ℕ) :
    ∀ fuel k best, ∀ x ∈ (scanRun N sorted b0pos i bIdx k fuel best).2, k ≤ x := by
  intro fuel
  induction fuel with
  | zero =>
    intro k best x hx
    simp only [scanRun] at hx
    split at hx <;> simp at hx <;> omega
  | succ fuel ih =>
    intro k best x hx
    simp only [scanRun] at hx
    split at hx
    · rcases List.mem_cons.mp hx with rfl | hx
      · exact le_rfl
      · have := ih (k + 1) _ x hx
        omega
    · simp at hx
      omega

/-- The scan dereferences every index of the contiguous block of
    matching ids that starts at its start index. -/
lemma scanRun_derefs_cover (N : ℕ) (sorted : ℕ → Point) (b0pos : Vec3) (i bIdx : ℕ) :
    ∀ fuel k best x, N ≤ fuel + k → k ≤ x → x < N →
      (∀ y, k ≤ y → y < x → (sorted y).bucket_id = bIdx) →
      x ∈ (scanRun N sorted b0pos i bIdx k fuel best).2 := by
  intro fuel
  induction fuel with
  | zero =>
    intro k best x hfuel hkx hxN _
    omega
  | succ fuel ih =>
    intro k best x hfuel hkx hxN hrun
    simp only [scanRun]
    by_cases hxk : x = k
    · subst hxk
      split
      · exact List.mem_cons_self _ _
      · simp
    · have hkx' : k < x := by omega
      have hidk : (sorted k).bucket_id = bIdx := hrun k le_rfl hkx'
      have hcond : (sorted k).bucket_id = bIdx ∧ k + 1 < N := ⟨hidk, by omega⟩
      rw [if_pos hcond]
      refine List.mem_cons_of_mem k ?_
      exact ih (k + 1) _ x (by omega) (by omega) hxN fun y hy1 hy2 => hrun y (by omega) hy2

/-- A local-first index of a bucket's run is a global first, given
    contiguity of the sorted array. -/
lemma first_of_run_global (N : ℕ) (sorted : ℕ → Point)
    (Hcontig : ∀ k1 k2 k3, k1 ≤ k2 → k2 ≤ k3 → k3 < N →
      (sorted k1).bucket_id = (sorted k3).bucket_id →
      (sorted k2).bucket_id = (sorted k1).bucket_id)
    (s x : ℕ) (hsN : s < N) (hxN : x < N)
    (hid : (sorted x).bucket_id = (sorted s).bucket_id)
    (hfirst : s = 0 ∨ (sorted (s - 1)).bucket_id ≠ (sorted s).bucket_id) :
    s ≤ x := by
  by_contra hlt
  push_neg at hlt
  have hs0 : s ≠ 0 := by omega
  have := Hcontig x (s - 1) s (by omega) (by omega) hsN hid
  rcases hfirst with h | h
  · exact hs0 h
  · rw [this, hid] at h
    exact h rfl

/-- Admissible indices of one scan are exactly the whole bucket's
    members other than the query point. -/
lemma scan_members (N : ℕ) (sorted : ℕ → Point) (b0pos : Vec3) (i bIdx s : ℕ)
    (Hcontig : ∀ k1 k2 k3, k1 ≤ k2 → k2 ≤ k3 → k3 < N →
      (sorted k1).bucket_id = (sorted k3).bucket_id →
      (sorted k2).bucket_id = (sorted k1).bucket_id)
    (hsN : s < N) (hsid : (sorted s).bucket_id = bIdx)
    (hfirst : s = 0 ∨ (sorted (s - 1)).bucket_id ≠ bIdx) :
    ∀ x best,
      ((x ∈ (scanRun N sorted b0pos i bIdx s N best).2 ∧ i ≠ x ∧
        (sorted x).bucket_id = bIdx) ↔
      (x < N ∧ x ≠ i ∧ (sorted x).bucket_id = bIdx)) := by
  intro x best
  constructor
  · rintro ⟨hmem, hix, hid⟩
    exact ⟨scanRun_derefs_bound N sorted b0pos i bIdx N s best hsN x hmem,
      fun h => hix h.symm, hid⟩
  · rintro ⟨hxN, hxi, hid⟩
    have hsx : s ≤ x :=
      first_of_run_global N sorted Hcontig s x hsN hxN (by rw [hid, hsid]) (by
        rcases hfirst with h | h
        · exact Or.inl h
        · right
          rw [hsid]
          exact h)
    refine ⟨?_, fun h => hxi h.symm, hid⟩
    refine scanRun_derefs_cover N sorted b0pos i bIdx N s best x (by omega) hsx hxN ?_
    intro y hy1 hy2
    have := Hcontig s y x hy1 (by omega) hxN (by rw [hsid, hid])
    rw [this, hsid]

/-- The best-state component of `searchStep`. -/
def bestStep (N : ℕ) (sorted : ℕ → Point) (boundary : ℕ → ℤ) (b0pos : Vec3) (i : ℕ)
    (best : Option (ℚ × ℕ)) (off : Vec3) : Option (ℚ × ℕ) :=
  let bucket_index := fib_hash_offset b0pos off
  let k := boundary bucket_index
  if k = -1 then best
  else (scanRun N sorted b0pos i bucket_index k.toNat N best).1

lemma searchStep_fst (N : ℕ) (sorted : ℕ → Point) (boundary : ℕ → ℤ) (b0pos : Vec3)
    (i : ℕ) (st : Option (ℚ × ℕ) × List ℕ) (off : Vec3) :
    (searchStep N sorted boundary b0pos i st off).1 =
      bestStep N sorted boundary b0pos i st.1 off := by
  simp only [searchStep, bestStep]
  split <;> rfl

lemma foldl_searchStep_fst (N : ℕ) (sorted : ℕ → Point) (boundary : ℕ → ℤ)
    (b0pos : Vec3) (i : ℕ) :
    ∀ (offs : List Vec3) (st : Option (ℚ × ℕ) × List ℕ),
      (offs.foldl (searchStep N sorted boundary b0pos i) st).1 =
        offs.foldl (bestStep N sorted boundary b0pos i) st.1 := by
  intro offs
  induction offs with
  | nil => intro st; rfl
  | cons off offs ih =>
    intro st
    rw [List.foldl_cons, List.foldl_cons, ih, searchStep_fst]

/-- Membership of an index in the candidate set accumulated over a
    prefix of the offset table. -/
def memUpTo (N : ℕ) (sorted : ℕ → Point) (i : ℕ) (O : List Vec3) (x : ℕ) : Prop :=
  x < N ∧ x ≠ i ∧ ∃ off ∈ O, (sorted x).bucket_id = fib_hash_offset (sorted i).position off

lemma memUpTo_append_single (N : ℕ) (sorted : ℕ → Point) (i : ℕ) (O : List Vec3)
    (off : Vec3) (x : ℕ) :
    memUpTo N sorted i (O ++ [off]) x ↔
      memUpTo N sorted i O x ∨
        (x < N ∧ x ≠ i ∧
          (sorted x).bucket_id = fib_hash_offset (sorted i).position off) := by
  constructor
  · rintro ⟨h1, h2, o, ho, h3⟩
    rcases List.mem_append.mp ho with ho | ho
    · exact Or.inl ⟨h1, h2, o, ho, h3⟩
    · have : o = off := by
        rcases List.mem_cons.mp ho with h | h
        · exact h
        · simp at h
      subst this
      exact Or.inr ⟨h1, h2, h3⟩
  · rintro (⟨h1, h2, o, ho, h3⟩ | ⟨h1, h2, h3⟩)
    · exact ⟨h1, h2, o, List.mem_append_left _ ho, h3⟩
    · exact ⟨h1, h2, off, List.mem_append_right _ (List.mem_cons_self off []), h3⟩

/-- Invariant of the 8-bucket loop: the best-so-far state is `none`
    exactly when no candidate has been seen, and otherwise holds a
    candidate of minimal distance among those seen. -/
def BestInv (N : ℕ) (sorted : ℕ → Point) (i : ℕ) (O : List Vec3)
    (B : Option (ℚ × ℕ)) : Prop :=
  (B = none ↔ ∀ x, ¬ memUpTo N sorted i O x) ∧
  (∀ d j, B = some (d, j) → memUpTo N sorted i O j ∧
    d = dist2 (sorted j).position (sorted i).position ∧
    ∀ x, memUpTo N sorted i O x →
      d ≤ dist2 (sorted x).position (sorted i).position)

/-- One offset step preserves the invariant, given the boundary-table
    and contiguity hypotheses. -/
lemma bestStep_inv (N : ℕ) (sorted : ℕ → Point) (boundary : ℕ → ℤ) (i : ℕ)
    (Hb1 : ∀ b k, boundary b = -1 → k < N → (sorted k).bucket_id ≠ b)
    (Hb2 : ∀ b, boundary b ≠ -1 → ∃ s : ℕ, boundary b = (s : ℤ) ∧ s < N ∧
      (sorted s).bucket_id = b ∧ (s = 0 ∨ (sorted (s - 1)).bucket_id ≠ b))
    (Hcontig : ∀ k1 k2 k3, k1 ≤ k2 → k2 ≤ k3 → k3 < N →
      (sorted k1).bucket_id = (sorted k3).bucket_id →
      (sorted k2).bucket_id = (sorted k1).bucket_id)
    (O : List Vec3) (B : Option (ℚ × ℕ)) (off : Vec3)
    (h : BestInv N sorted i O B) :
    BestInv N sorted i (O ++ [off])
      (bestStep N sorted boundary (sorted i).position i B off) := by
  set bIdx := fib_hash_offset (sorted i).position off with hbIdx
  by_cases hk : boundary bIdx = -1
  · have hstep : bestStep N sorted boundary (sorted i).position i B off = B := by
      rw [bestStep]
      simp only [← hbIdx]
      rw [if_pos hk]
    rw [hstep]
    have hiff : ∀ x, memUpTo N sorted i (O ++ [off]) x ↔ memUpTo N sorted i O x := by
      intro x
      rw [memUpTo_append_single]
      constructor
      · rintro (hm | ⟨h1, h2, h3⟩)
        · exact hm
        · exact absurd h3 (Hb1 bIdx x hk h1)
      · exact Or.inl
    constructor
    · rw [h.1]
      exact ⟨fun ha x hm => ha x ((hiff x).mp hm), fun ha x hm => ha x ((hiff x).mpr hm)⟩
    · intro d j hBe
      obtain ⟨hm, hd, hmin⟩ := h.2 d j hBe
      exact ⟨(hiff j).mpr hm, hd, fun x hx => hmin x ((hiff x).mp hx)⟩
  · obtain ⟨s, hbs, hsN, hsid, hfirst⟩ := Hb2 bIdx hk
    have hstep : bestStep N sorted boundary (sorted i).position i B off =
        (scanRun N sorted (sorted i).position i bIdx s N B).1 := by
      rw [bestStep]
      simp only [← hbIdx]
      rw [if_neg hk, hbs, Int.toNat_natCast]
    rw [hstep, scanRun_fst_eq]
    set L := (scanRun N sorted (sorted i).position i bIdx s N B).2 with hL
    obtain ⟨hnone, hsome⟩ := foldGuard_spec sorted (sorted i).position i bIdx L B
    have hmem := scan_members N sorted (sorted i).position i bIdx s Hcontig hsN hsid
      hfirst
    have hLlt : ∀ x ∈ L, x < N :=
      scanRun_derefs_bound N sorted (sorted i).position i bIdx N s B hsN
    constructor
    · rw [hnone]
      constructor
      · rintro ⟨hB, hnog⟩ x hx
        rw [memUpTo_append_single] at hx
        rcases hx with hm | ⟨h1, h2, h3⟩
        · exact (h.1.mp hB) x hm
        · have := (hmem x B).mpr ⟨h1, h2, h3⟩
          exact hnog x this.1 ⟨this.2.1, this.2.2⟩
      · intro hall
        constructor
        · rw [h.1]
          intro x hm
          exact hall x ((memUpTo_append_single N sorted i O off x).mpr (Or.inl hm))
        · intro k hkL hgk
          have hkN : k < N := hLlt k hkL
          exact hall k ((memUpTo_append_single N sorted i O off k).mpr
            (Or.inr ⟨hkN, fun hh => hgk.1 hh.symm, hgk.2⟩))
    · intro d j hfold
      obtain ⟨hprov, hmin, hini⟩ := hsome d j hfold
      have hminall : ∀ x, memUpTo N sorted i (O ++ [off]) x →
          d ≤ dist2 (sorted x).position (sorted i).position := by
        intro x hx
        rw [memUpTo_append_single] at hx
        rcases hx with hm | ⟨h1, h2, h3⟩
        · cases hB : B with
          | none => exact absurd hm ((h.1.mp hB) x)
          | some pr =>
            obtain ⟨bd, bj⟩ := pr
            obtain ⟨_, _, hbmin⟩ := h.2 bd bj hB
            calc d ≤ bd := hini bd bj hB
              _ ≤ dist2 (sorted x).position (sorted i).position := hbmin x hm
        · have hxL := (hmem x B).mpr ⟨h1, h2, h3⟩
          exact hmin x hxL.1 ⟨hxL.2.1, hxL.2.2⟩
      refine ⟨?_, ?_, hminall⟩
      · rcases hprov with hBe | ⟨hjL, hgj, _⟩
        · obtain ⟨hm, _, _⟩ := h.2 d j hBe
          exact (memUpTo_append_single N sorted i O off j).mpr (Or.inl hm)
        · have hjN : j < N := hLlt j hjL
          exact (memUpTo_append_single N sorted i O off j).mpr
            (Or.inr ⟨hjN, fun hh => hgj.1 hh.symm, hgj.2⟩)
      · rcases hprov with hBe | ⟨_, _, hde⟩
        · exact (h.2 d j hBe).2.1
        · exact hde

/-- The invariant holds after folding any suffix of offsets. -/
lemma bestFold_inv (N : ℕ) (sorted : ℕ → Point) (boundary : ℕ → ℤ) (i : ℕ)
    (Hb1 : ∀ b k, boundary b = -1 → k < N → (sorted k).bucket_id ≠ b)
    (Hb2 : ∀ b, boundary b ≠ -1 → ∃ s : ℕ, boundary b = (s : ℤ) ∧ s < N ∧
      (sorted s).bucket_id = b ∧ (s = 0 ∨ (sorted (s - 1)).bucket_id ≠ b))
    (Hcontig : ∀ k1 k2 k3, k1 ≤ k2 → k2 ≤ k3 → k3 < N →
      (sorted k1).bucket_id = (sorted k3).bucket_id →
      (sorted k2).bucket_id = (sorted k1).bucket_id) :
    ∀ (O2 O1 : List Vec3) (B : Option (ℚ × ℕ)),
      BestInv N sorted i O1 B →
      BestInv N sorted i (O1 ++ O2)
        (O2.foldl (bestStep N sorted boundary (sorted i).position i) B) := by
  intro O2
  induction O2 with
  | nil =>
    intro O1 B h
    simpa using h
  | cons off O2 ih =>
    intro O1 B h
    have hstep := bestStep_inv N sorted boundary i Hb1 Hb2 Hcontig O1 B off h
    have := ih (O1 ++ [off]) _ hstep
    rw [List.foldl_cons]
    have hassoc : O1 ++ [off] ++ O2 = O1 ++ off :: O2 := by simp
    rw [hassoc] at this
    exact this

/-- Claim C1: under the boundary-table invariant and contiguity of the
    sorted array, the per-point search reports `found = true` exactly
    when the candidate set (indices other than `i` whose points lie in
    one of the 8 candidate buckets' runs) is non-empty, and in that case
    `nearest_index` is a candidate of minimal Euclidean distance to
    point `i` (squared distances compare identically; with exact ties
    the code keeps the first minimum encountered, so "the" minimiser is
    read as "a" minimiser). -/
theorem search_finds_nearest_candidate (N : ℕ) (sorted : ℕ → Point) (boundary : ℕ → ℤ)
    (Hb1 : ∀ b k, boundary b = -1 → k < N → (sorted k).bucket_id ≠ b)
    (Hb2 : ∀ b, boundary b ≠ -1 → ∃ s : ℕ, boundary b = (s : ℤ) ∧ s < N ∧
      (sorted s).bucket_id = b ∧ (s = 0 ∨ (sorted (s - 1)).bucket_id ≠ b))
    (Hcontig : ∀ k1 k2 k3, k1 ≤ k2 → k2 ≤ k3 → k3 < N →
      (sorted k1).bucket_id = (sorted k3).bucket_id →
      (sorted k2).bucket_id = (sorted k1).bucket_id)
    (i : ℕ) (hi : i < N) :
    ((searchPoint N sorted boundary i).found_nearest = true ↔
      ∃ k, isCandidate N sorted i k) ∧
    ((searchPoint N sorted boundary i).found_nearest = true →
      isCandidate N sorted i (searchPoint N sorted boundary i).nearest_index ∧
      ∀ k, isCandidate N sorted i k →
        dist2 (sorted ((searchPoint N sorted boundary i).nearest_index)).position
            (sorted i).position ≤
          dist2 (sorted k).position (sorted i).position) := by
  have hsb : searchBest N sorted boundary i =
      hash_bucket_offsets.foldl (bestStep N sorted boundary (sorted i).position i)
        none := by
    rw [searchBest, searchScan_eq_foldl, foldl_searchStep_fst]
  have hbase : BestInv N sorted i [] none := by
    constructor
    · constructor
      · intro _ x hm
        obtain ⟨_, _, off, hoff, _⟩ := hm
        simp at hoff
      · intro _
        rfl
    · intro d j hcontra
      simp at hcontra
  have hBinv : BestInv N sorted i hash_bucket_offsets
      (searchBest N sorted boundary i) := by
    rw [hsb]
    have := bestFold_inv N sorted boundary i Hb1 Hb2 Hcontig hash_bucket_offsets []
      none hbase
    simpa using this
  have hcand : ∀ k, isCandidate N sorted i k ↔ memUpTo N sorted i hash_bucket_offsets k :=
    fun k => Iff.rfl
  cases hB : searchBest N sorted boundary i with
  | none =>
    have hfound : (searchPoint N sorted boundary i).found_nearest = false := by
      simp [searchPoint, hB]
    constructor
    · rw [hfound]
      constructor
      · intro h
        exact absurd h (by simp)
      · rintro ⟨k, hk⟩
        exact absurd ((hcand k).mp hk) (hBinv.1.mp hB k)
    · rw [hfound]
      intro h
      exact absurd h (by simp)
  | some pr =>
    obtain ⟨d, j⟩ := pr
    obtain ⟨hm, hd, hmin⟩ := hBinv.2 d j hB
    have hfound : (searchPoint N sorted boundary i).found_nearest = true := by
      simp [searchPoint, hB]
    have hnear : (searchPoint N sorted boundary i).nearest_index = j := by
      simp [searchPoint, hB]
    constructor
    · rw [hfound]
      exact ⟨fun _ => ⟨j, (hcand j).mpr hm⟩, fun _ => rfl⟩
    · intro _
      rw [hnear]
      refine ⟨(hcand j).mpr hm, ?_⟩
      intro k hk
      rw [← hd]
      exact hmin k ((hcand k).mp hk)

/-- Witness for C1 on the one-point instance: the candidate set of the
    only point is empty, and the theorem's conclusion is instantiated
    there with all hypotheses discharged. -/
theorem search_finds_nearest_candidate_witness :
    ((searchPoint 1 wSorted wBoundary 0).found_nearest = true ↔
      ∃ k, isCandidate 1 wSorted 0 k) ∧
    ((searchPoint 1 wSorted wBoundary 0).found_nearest = true →
      isCandidate 1 wSorted 0 (searchPoint 1 wSorted wBoundary 0).nearest_index ∧
      ∀ k, isCandidate 1 wSorted 0 k →
        dist2 (wSorted ((searchPoint 1 wSorted wBoundary 0).nearest_index)).position
            (wSorted 0).position ≤
          dist2 (wSorted k).position (wSorted 0).position) := by
  refine search_finds_nearest_candidate 1 wSorted wBoundary ?_ ?_ ?_ 0 (by norm_num)
  · intro b k hb hk
    by_cases h : b = 5
    · subst h
      simp [wBoundary] at hb
    · show wPoint.bucket_id ≠ b
      rw [wPoint]
      exact fun hc => h hc.symm
  · intro b hb
    by_cases h : b = 5
    · subst h
      refine ⟨0, by simp [wBoundary], by norm_num, by simp [wSorted, wPoint], Or.inl rfl⟩
    · exact absurd (by simp [wBoundary, h]) hb
  · intro k1 k2 k3 _ _ _ _
    rfl

end NNSearch
